import Mathlib

/-!
Verification of the Rewriter corpus-analysis core: a shallow embedding of
`rewriter/analyzer/sampler.py`, `rewriter/analyzer/examples.py`,
`rewriter/analyzer/style_extractor.py`, `rewriter/llm/client.py` and
`rewriter/llm/batch.py`, together with theorems settling the spec claims.

Python machine floats are modelled as exact rationals (all constants involved
are exactly representable), Python's seeded `random.Random` is modelled as an
abstract selection oracle constrained only by the properties the code relies
on, and external services (Anthropic API, SQLite store, scikit-learn) are
modelled as oracle parameters mirroring their documented behaviour.
-/

namespace Rewriter

/-- Corpus article (`rewriter/corpus/models.py`, class `Article`); only the
fields the analysis core reads.  `publishedAt` is a timestamp, `none` when the
article has no publication date. -/
structure Article where
  id : Nat
  title : String
  content : String
  publishedAt : Option Int
  categories : List String
deriving DecidableEq, Repr

/-! ## Chunker (`sampler.py`, `chunk_articles`) -/

/-- The string whose tokens are counted for one article:
`f"## {article.title}\n\n{article.content}"`. -/
def articleText (a : Article) : String :=
  "## " ++ a.title ++ "\n\n" ++ a.content

/-- Combined token estimate of a chunk under token counter `tc`. -/
def sumTok (tc : String → Nat) (c : List Article) : Nat :=
  (c.map (fun a => tc (articleText a))).sum

/-- Loop body of `chunk_articles`: walks the remaining articles carrying the
current chunk and its running token total, flushing exactly when the current
chunk is non-empty and adding the article would exceed the token budget or the
chunk has reached the item cap. -/
def chunkGo (maxTok maxPer : Nat) (tc : String → Nat) :
    List Article → List Article → Nat → List (List Article)
  | [], current, _ => if current.isEmpty then [] else [current]
  | a :: rest, current, curTok =>
    let t := tc (articleText a)
    if !current.isEmpty && (decide (maxTok < curTok + t) || decide (maxPer ≤ current.length)) then
      current :: chunkGo maxTok maxPer tc rest [a] t
    else
      chunkGo maxTok maxPer tc rest (current ++ [a]) (curTok + t)

/-- `chunk_articles(articles, settings, token_counter)` with
`maxTok = settings.chunk_max_tokens` and `maxPer = settings.chunk_articles`. -/
def chunkArticles (maxTok maxPer : Nat) (tc : String → Nat)
    (articles : List Article) : List (List Article) :=
  chunkGo maxTok maxPer tc articles [] 0

/-- The chunk invariant: non-empty, and within budget-and-cap or a singleton. -/
def ChunkOk (maxTok maxPer : Nat) (tc : String → Nat) (c : List Article) : Prop :=
  c ≠ [] ∧ (sumTok tc c ≤ maxTok ∧ c.length ≤ maxPer ∨ c.length = 1)

/-! ## Stratified sampler (`sampler.py`, `stratified_sample`) -/

/-- Python's built-in `round` (banker's rounding: half rounds to even) on an
exact rational, computed with integer arithmetic so that it kernel-evaluates
(for `x = x.num / x.den` with `x.den > 0`, the fractional-part comparison
`x - ⌊x⌋ < 1/2` becomes `2 * x.num < (2 * ⌊x⌋ + 1) * x.den`, and so on);
`pyRound_eq_floor_form` restates it in floor/fractional-part form. -/
def pyRound (x : ℚ) : ℤ :=
  if 2 * x.num < (2 * ⌊x⌋ + 1) * (x.den : ℤ) then ⌊x⌋
  else if (2 * ⌊x⌋ + 1) * (x.den : ℤ) < 2 * x.num then ⌊x⌋ + 1
  else if ⌊x⌋ % 2 = 0 then ⌊x⌋ else ⌊x⌋ + 1

/-- `target_n = max(10, int(len(articles) * settings.sample_fraction))`,
computed with integer arithmetic; `targetCount_eq_floor` shows it equals
`max 10 (Int.toNat ⌊(n : ℚ) * frac⌋)`. -/
def targetCount (frac : ℚ) (n : Nat) : Nat :=
  max 10 (Int.toNat ((n * frac.num) / (frac.den : ℤ)))

/-- Primary category of an article: its first category label, or the
`"_uncategorized"` bucket. -/
def primaryCat (a : Article) : String :=
  match a.categories with
  | [] => "_uncategorized"
  | c :: _ => c

/-- The keys of a Python dict built by repeated insertion: first-occurrence
order, without duplicates. -/
def firstOccs {α : Type} [DecidableEq α] : List α → List α
  | [] => []
  | x :: rest => x :: (firstOccs rest).filter (fun y => decide (y ≠ x))

/-- The random oracle: `pick l n` models `rng.sample(l, n)` (a selection of
`n` of the elements of `l`), `shuffle` models `rng.shuffle`. -/
structure Rng where
  pick : List Article → Nat → List Article
  shuffle : List Article → List Article

/-- The facts about `random.Random` that the sampler's size behaviour relies
on: `sample(l, n)` returns exactly `n` elements (for `n ≤ len(l)`), and
`shuffle` preserves length. -/
def Rng.Valid (rng : Rng) : Prop :=
  (∀ l n, n ≤ l.length → (rng.pick l n).length = n) ∧
  (∀ l, (rng.shuffle l).length = l.length)

/-- Sort key `a.published_at or _epoch` (the epoch is timestamp `0`). -/
def dateKey (a : Article) : Int := a.publishedAt.getD 0

/-- `cat_articles.sort(key=lambda a: a.published_at or _epoch)` — Python's
stable sort, modelled by stable insertion sort. -/
def sortByDate (l : List Article) : List Article :=
  l.insertionSort (fun a b => dateKey a ≤ dateKey b)

/-- Exact quotient of two integers as a rational — the model of Python's float
division `a / b` on integers (evaluates like `(a : ℚ) / (b : ℚ)`). -/
def ratDiv (a b : ℤ) : ℚ := Rat.divInt a b

/-- One per-category quota:
`cat_n = min(max(1, round(target_n * len(cat_articles) / len(articles))), len(cat_articles))`. -/
def categoryQuota (targetN n lenCat : Nat) : Nat :=
  min (Int.toNat (max 1 (pyRound (ratDiv (targetN * lenCat) n)))) lenCat

/-- The time-slice loop of `stratified_sample`, indexed by the number of
slices still to visit: with `k + 1` slices remaining the current slice index
is `s = nSlices - (k + 1)` (so `n_slices - s = k + 1`); `r` is `remainder`. -/
def sliceLoop (pick : List Article → Nat → List Article)
    (arts : List Article) (nSlices sliceSize : Nat) :
    Nat → Nat → List Article
  | 0, _ => []
  | k + 1, r =>
    let s := nSlices - (k + 1)
    let start := s * sliceSize
    let stop := if s < nSlices - 1 then start + sliceSize else arts.length
    let slice := (arts.drop start).take (stop - start)
    let n := min (r / (k + 1)) slice.length
    pick slice n ++ sliceLoop pick arts nSlices sliceSize k (r - n)

/-- Per-category selection: the whole (sorted) group when its quota reaches
its size, otherwise the time-slice loop with `n_slices = min(cat_n, 4)` and
`slice_size = len(cat_articles) // n_slices`. -/
def categorySelect (pick : List Article → Nat → List Article)
    (group : List Article) (catN : Nat) : List Article :=
  if group.length ≤ catN then group
  else
    let nSlices := min catN 4
    sliceLoop pick group nSlices (group.length / nSlices) nSlices catN

/-- The aggregate selection of `stratified_sample` over all category groups,
before the overshoot-correction step. -/
def selectedBeforeCorrection (pick : List Article → Nat → List Article)
    (frac : ℚ) (articles : List Article) : List Article :=
  let targetN := targetCount frac articles.length
  let keys := firstOccs (articles.map primaryCat)
  (keys.map fun k =>
    let group := sortByDate (articles.filter (fun a => decide (primaryCat a = k)))
    categorySelect pick group (categoryQuota targetN articles.length group.length)).flatten

/-- `stratified_sample(articles, settings, seed=seed)`. -/
def stratifiedSample (rng : Rng) (frac : ℚ) (articles : List Article) :
    List Article :=
  let targetN := targetCount frac articles.length
  let selected := selectedBeforeCorrection rng.pick frac articles
  rng.shuffle (if targetN < selected.length then rng.pick selected targetN else selected)

/-- A concrete valid oracle (used for counterexamples): `pick` takes the first
`n` elements, `shuffle` is the identity. -/
def takeRng : Rng :=
  { pick := fun l n => l.take n
    shuffle := fun l => l }

/-- A 12-article corpus: category sizes 5, 4 and 3. -/
def mkArticle (i : Nat) (cat : String) : Article :=
  { id := i, title := "", content := "", publishedAt := none, categories := [cat] }

/-- Counterexample corpus for the sampler size claim. -/
def corpus12 : List Article :=
  (List.range 5).map (fun i => mkArticle i "a") ++
  (List.range 4).map (fun i => mkArticle (5 + i) "b") ++
  (List.range 3).map (fun i => mkArticle (9 + i) "c")

/-! ## LLM client retry loop (`client.py`, `LLMClient.complete`) -/

/-- Outcome of one API call attempt, as the retry loop distinguishes them:
a successful response, `anthropic.RateLimitError` (optionally carrying a
`retry-after` header value), `anthropic.APIStatusError` with its status code,
or any other exception class. -/
inductive ApiResponse where
  | success (text : String)
  | rateLimit (retryAfter : Option ℚ)
  | apiStatus (code : Nat)
  | otherError
deriving DecidableEq, Repr

/-- How a call to `complete` ends: returning text, re-raising an
`APIStatusError`, propagating another exception, or raising
`RuntimeError("Failed after ... retries")` when attempts are exhausted. -/
inductive CallOutcome where
  | ok (text : String)
  | raisedStatus (code : Nat)
  | raisedOther
  | exhausted
deriving DecidableEq, Repr

/-- A finished call: its outcome plus the sequence of sleeps performed. -/
structure CallRun where
  outcome : CallOutcome
  delays : List ℚ
deriving DecidableEq, Repr

def MAX_RETRIES : Nat := 10
def BASE_DELAY : ℚ := 2
def MAX_DELAY : ℚ := 120

/-- `delay = min(BASE_DELAY * (2 ** attempt), MAX_DELAY)`. -/
def backoffDelay (attempt : Nat) : ℚ :=
  min (BASE_DELAY * 2 ^ attempt) MAX_DELAY

/-- The delay slept before retrying response `r` at 0-based index `attempt`;
for a rate limit the backoff is raised to the `retry-after` hint when that
hint is larger (`delay = max(delay, float(ra))`). -/
def responseDelay (r : ApiResponse) (attempt : Nat) : ℚ :=
  match r with
  | .rateLimit (some ra) => max (backoffDelay attempt) ra
  | _ => backoffDelay attempt

/-- Responses the loop retries: any rate limit, and an `APIStatusError` with
`status_code >= 500 or status_code == 529`. -/
def retryable (r : ApiResponse) : Bool :=
  match r with
  | .rateLimit _ => true
  | .apiStatus code => decide (500 ≤ code) || decide (code = 529)
  | _ => false

/-- The retry loop of `LLMClient.complete` with `rem` attempts remaining
(`attempt` is the 0-based attempt index); `resp i` is the API's behaviour on
the `i`-th attempt. -/
def completeAux (resp : Nat → ApiResponse) : Nat → Nat → CallRun
  | _, 0 => ⟨.exhausted, []⟩
  | attempt, rem + 1 =>
    match resp attempt with
    | .success t => ⟨.ok t, []⟩
    | .rateLimit ra =>
      let run := completeAux resp (attempt + 1) rem
      ⟨run.outcome, responseDelay (.rateLimit ra) attempt :: run.delays⟩
    | .apiStatus code =>
      if 500 ≤ code ∨ code = 529 then
        let run := completeAux resp (attempt + 1) rem
        ⟨run.outcome, backoffDelay attempt :: run.delays⟩
      else ⟨.raisedStatus code, []⟩
    | .otherError => ⟨.raisedOther, []⟩

/-- `LLMClient.complete`: `for attempt in range(MAX_RETRIES): ...`. -/
def complete (resp : Nat → ApiResponse) : CallRun :=
  completeAux resp 0 MAX_RETRIES

/-- A run of `k` hint-less rate limits followed by success with text `t`. -/
def rateLimitRun (k : Nat) (t : String) : Nat → ApiResponse :=
  fun i => if i < k then .rateLimit none else .success t

/-! ## Batch result collection (`batch.py`) and text extraction (`client.py`) -/

/-- One content block of a message (`block.type == "text"` or anything else). -/
inductive Block where
  | text (s : String)
  | other
deriving DecidableEq, Repr

/-- `_collect_results`' per-message text: every text block concatenated
(`text += block.text`). -/
def concatText (blocks : List Block) : String :=
  blocks.foldl (fun acc b => match b with | .text s => acc ++ s | .other => acc) ""

/-- `LLMClient._extract_text`: the first text block's text, or `""`. -/
def extractText : List Block → String
  | [] => ""
  | .text s :: _ => s
  | .other :: rest => extractText rest

/-- The texts of the text blocks, in order. -/
def textBlocks (blocks : List Block) : List String :=
  blocks.filterMap fun b => match b with | .text s => some s | .other => none

/-- Result of one request inside a finished batch. -/
inductive BatchOutcome where
  | succeeded (blocks : List Block)
  | failed (errType : String)
deriving DecidableEq, Repr

/-- One entry of `client.messages.batches.results(batch_id)`. -/
structure BatchEvent where
  customId : String
  result : BatchOutcome
deriving DecidableEq, Repr

/-- The text `_collect_results` stores for an outcome: concatenated text
blocks on success, the empty string on failure. -/
def outcomeText : BatchOutcome → String
  | .succeeded blocks => concatText blocks
  | .failed _ => ""

/-- Python dict assignment `d[k] = v` on an insertion-ordered assoc list:
overwrite in place if the key exists, else append. -/
def dictInsert (k v : String) (d : List (String × String)) :
    List (String × String) :=
  if d.any (fun p => p.1 == k) then
    d.map (fun p => if p.1 == k then (k, v) else p)
  else d ++ [(k, v)]

/-- Dict lookup. -/
def dictLookup (d : List (String × String)) (k : String) : Option String :=
  (d.find? (fun p => p.1 == k)).map (fun p => p.2)

/-- A dict built by inserting the listed key/value pairs in order. -/
def dictOfPairs (ps : List (String × String)) : List (String × String) :=
  ps.foldl (fun d p => dictInsert p.1 p.2 d) []

/-- `BatchProcessor._collect_results`: one entry per fetched outcome. -/
def collectResults (events : List BatchEvent) : List (String × String) :=
  events.foldl (fun d e => dictInsert e.customId (outcomeText e.result) d) []

/-- One request dict passed to the batch processor
(`{'custom_id': ..., 'system': ..., 'messages': ...}`). -/
structure BatchRequest where
  customId : String
  system : String
  messages : List String
deriving DecidableEq, Repr

/-- `BatchProcessor.fallback_sequential`, with `completeFn` standing for
`LLMClient.complete` (the text returned for a request's system prompt and
messages). -/
def fallbackSequential (completeFn : String → List String → String)
    (requests : List BatchRequest) : List (String × String) :=
  requests.foldl
    (fun d req => dictInsert req.customId (completeFn req.system req.messages) d) []

/-! ## Example selection (`examples.py`, `ExampleSelector.build_clusters`) -/

/-- A selected few-shot example (`rewriter/corpus/models.py`,
class `FewShotExample`). -/
structure FewShotExample where
  articleId : Nat
  clusterId : Nat
  distanceToCentroid : ℚ
deriving DecidableEq, Repr

/-- `np.argmax`: index of the first maximal element (`l.length` on the empty
list, which callers never hit) — the first position whose value dominates the
whole list. -/
def argmaxIdx (l : List ℚ) : Nat :=
  l.findIdx fun x => decide (∀ y ∈ l, y ≤ x)

/-- The representative-selection loop of `build_clusters`: `labels` is the
K-Means cluster assignment (one label per article, in article order), and
`sim i cid` the cosine similarity of article `i`'s TF-IDF vector to centroid
`cid`.  For each cluster id below `k`, the member indices are collected in
ascending order (`np.where`); an empty cluster is skipped; otherwise the
member of maximal similarity becomes the example, with distance
`1 - similarity`. -/
def buildExamples (k : Nat) (labels : List Nat) (sim : Nat → Nat → ℚ)
    (articleIds : List Nat) : List FewShotExample :=
  (List.range k).filterMap fun cid =>
    let indices := (List.range labels.length).filter
      (fun i => decide (labels.getD i 0 = cid))
    if indices.isEmpty then none
    else
      let distances := indices.map (fun i => sim i cid)
      some
        { articleId := articleIds.getD (indices.getD (argmaxIdx distances) 0) 0
          clusterId := cid
          distanceToCentroid := 1 - distances.getD (argmaxIdx distances) 0 }

/-- `build_clusters` cluster-count choice and selection loop:
`n_clusters = min(settings.n_clusters, len(articles))`. -/
def buildClusters (nClustersSetting : Nat) (labels : List Nat)
    (sim : Nat → Nat → ℚ) (articleIds : List Nat) : List FewShotExample :=
  buildExamples (min nClustersSetting articleIds.length) labels sim articleIds

/-! ## Similarity retrieval (`examples.py`, `ExampleSelector.find_similar`) -/

/-- The comparison `np.argsort` sorts positions by: ascending value, ties by
ascending position (a stable ascending sort of the value list). -/
def argsortRel (vals : List ℚ) (i j : Nat) : Prop :=
  vals.getD i 0 < vals.getD j 0 ∨ (vals.getD i 0 = vals.getD j 0 ∧ i ≤ j)

instance argsortRelDecidable (vals : List ℚ) : DecidableRel (argsortRel vals) :=
  fun i j => by unfold argsortRel; infer_instance

/-- Model of `np.argsort`: the positions `0, ..., len-1` stably sorted by
ascending value. -/
def argsort (vals : List ℚ) : List Nat :=
  (List.range vals.length).insertionSort (argsortRel vals)

/-- Python slice `a[-n:]`; note that `a[-0:]` is the whole list. -/
def pySliceLast {α : Type} (l : List α) (n : Nat) : List α :=
  if n = 0 then l else l.drop (l.length - n)

/-- `store.get_articles_by_ids`: `SELECT ... WHERE id IN (...) ORDER BY id` —
the distinct requested ids, in ascending id order. -/
def sqlByIds (ids : List Nat) : List Nat :=
  ids.dedup.insertionSort (fun a b => a ≤ b)

/-- `ExampleSelector.find_similar` at the level of article ids: `sim i` is
the cosine similarity of the query's projected vector to the TF-IDF row of
article index `i`; `articleIds` is `self._article_ids`; `exampleIds` the
stored example article ids. -/
def findSimilar (sim : Nat → ℚ) (articleIds exampleIds : List Nat) (n : Nat) :
    List Nat :=
  let exampleIndices := (List.range articleIds.length).filter
    (fun i => decide (articleIds.getD i 0 ∈ exampleIds))
  let similarities := exampleIndices.map (fun i => sim i)
  let topN := min n exampleIndices.length
  let topIdx := (pySliceLast (argsort similarities) topN).reverse
  let requested := topIdx.map (fun p => articleIds.getD (exampleIndices.getD p 0) 0)
  sqlByIds requested

/-! ## JSON extraction (`style_extractor.py`, `StyleExtractor._parse_json`)

Python's `json` module is modelled by a recursive-descent parser over
character lists covering the subset the analysis pipeline produces and the
spec exercises: objects, arrays, strings with the single-character escapes,
integers, booleans and null.  A string that this subset cannot parse is
rejected (`none`), exactly as `json.loads` raises `JSONDecodeError`. -/

/-- The JSON value universe (`dict`/`list`/`str`/`int`/`bool`/`None`). -/
inductive JsonVal where
  | jnull
  | jbool (b : Bool)
  | jnum (n : Int)
  | jstr (s : String)
  | jarr (xs : List JsonVal)
  | jobj (fields : List (String × JsonVal))
deriving Repr

/-- The whitespace stripped by Python's `str.strip()` (ASCII subset). -/
def pyIsSpace (c : Char) : Bool :=
  c == ' ' || c == '\t' || c == '\n' || c == '\r' || c == '\x0b' || c == '\x0c'

/-- `text.strip()`. -/
def pyStrip (l : List Char) : List Char :=
  ((l.dropWhile pyIsSpace).reverse.dropWhile pyIsSpace).reverse

/-- `text.split("\n")`. -/
def splitOnNl : List Char → List (List Char)
  | [] => [[]]
  | c :: rest =>
    match splitOnNl rest with
    | [] => [[]]
    | cur :: more => if c == '\n' then [] :: cur :: more else (c :: cur) :: more

/-- `"\n".join(lines)`. -/
def joinNl (lines : List (List Char)) : List Char :=
  List.intercalate ['\n'] lines

/-- `text.startswith("```")`. -/
def startsFence (l : List Char) : Bool :=
  l.take 3 == ['`', '`', '`']

/-- The code-fence stripping of `_parse_json`: strip the text; if it starts
with a fence, drop every line whose stripped form starts with a fence and
re-join the remainder. -/
def stripFences (l : List Char) : List Char :=
  let t := pyStrip l
  if startsFence t then
    joinNl ((splitOnNl t).filter fun ln => !startsFence (pyStrip ln))
  else t

/-- JSON inter-token whitespace. -/
def jsonWs (c : Char) : Bool :=
  c == ' ' || c == '\t' || c == '\n' || c == '\r'

def skipWs (l : List Char) : List Char := l.dropWhile jsonWs

/-- JSON string body after the opening quote (single-character escapes). -/
def parseStrAux : List Char → List Char → Option (String × List Char)
  | [], _ => none
  | '"' :: rest, acc => some (⟨acc.reverse⟩, rest)
  | ['\\'], _ => none
  | '\\' :: e :: rest, acc =>
    match e with
    | '"' => parseStrAux rest ('"' :: acc)
    | '\\' => parseStrAux rest ('\\' :: acc)
    | '/' => parseStrAux rest ('/' :: acc)
    | 'n' => parseStrAux rest ('\n' :: acc)
    | 't' => parseStrAux rest ('\t' :: acc)
    | 'r' => parseStrAux rest ('\r' :: acc)
    | 'b' => parseStrAux rest ('\x08' :: acc)
    | 'f' => parseStrAux rest ('\x0c' :: acc)
    | _ => none
  | c :: rest, acc => parseStrAux rest (c :: acc)

def parseStr (l : List Char) : Option (String × List Char) :=
  parseStrAux l []

def digitsToNat (ds : List Char) : Nat :=
  ds.foldl (fun acc c => acc * 10 + (c.toNat - '0'.toNat)) 0

/-- A non-empty run of digits. -/
def parseNat (l : List Char) : Option (Nat × List Char) :=
  let ds := l.takeWhile fun c => c.isDigit
  if ds.isEmpty then none
  else some (digitsToNat ds, l.drop ds.length)

/-- Parser modes: a value, an object body (after `\x7b`), its members, an
array body (after `[`), its items. -/
inductive PMode where
  | val | objBody | fields | arrBody | items

/-- Parser results: a value, an object's members, or an array's items. -/
inductive PRes where
  | v (x : JsonVal)
  | fs (x : List (String × JsonVal))
  | vs (x : List JsonVal)

/-- The recursive-descent core, structurally recursive on a fuel bound (one
unit per nesting step, so any fuel beyond the input length is enough). -/
def parseStep : Nat → PMode → List Char → Option (PRes × List Char)
  | 0, _, _ => none
  | fuel + 1, .val, l =>
    match skipWs l with
    | '{' :: rest => parseStep fuel .objBody rest
    | '[' :: rest => parseStep fuel .arrBody rest
    | '"' :: rest =>
      match parseStr rest with
      | some (s, restS) => some (.v (.jstr s), restS)
      | none => none
    | 't' :: 'r' :: 'u' :: 'e' :: rest => some (.v (.jbool true), rest)
    | 'f' :: 'a' :: 'l' :: 's' :: 'e' :: rest => some (.v (.jbool false), rest)
    | 'n' :: 'u' :: 'l' :: 'l' :: rest => some (.v .jnull, rest)
    | '-' :: rest =>
      match parseNat rest with
      | some (m, restN) => some (.v (.jnum (-(m : Int))), restN)
      | none => none
    | c :: rest =>
      if c.isDigit then
        match parseNat (c :: rest) with
        | some (m, restN) => some (.v (.jnum (m : Int)), restN)
        | none => none
      else none
    | [] => none
  | fuel + 1, .objBody, l =>
    match skipWs l with
    | '}' :: rest => some (.v (.jobj []), rest)
    | _ =>
      match parseStep fuel .fields l with
      | some (.fs fs, rest) => some (.v (.jobj fs), rest)
      | _ => none
  | fuel + 1, .fields, l =>
    match skipWs l with
    | '"' :: rest =>
      match parseStr rest with
      | some (key, rest1) =>
        match skipWs rest1 with
        | ':' :: rest2 =>
          match parseStep fuel .val rest2 with
          | some (.v v, rest3) =>
            match skipWs rest3 with
            | ',' :: rest4 =>
              match parseStep fuel .fields rest4 with
              | some (.fs fs, rest5) => some (.fs ((key, v) :: fs), rest5)
              | _ => none
            | '}' :: rest4 => some (.fs [(key, v)], rest4)
            | _ => none
          | _ => none
        | _ => none
      | none => none
    | _ => none
  | fuel + 1, .arrBody, l =>
    match skipWs l with
    | ']' :: rest => some (.v (.jarr []), rest)
    | _ =>
      match parseStep fuel .items l with
      | some (.vs vs, rest) => some (.v (.jarr vs), rest)
      | _ => none
  | fuel + 1, .items, l =>
    match parseStep fuel .val l with
    | some (.v v, rest) =>
      match skipWs rest with
      | ',' :: rest2 =>
        match parseStep fuel .items rest2 with
        | some (.vs vs, rest3) => some (.vs (v :: vs), rest3)
        | _ => none
      | ']' :: rest2 => some (.vs [v], rest2)
      | _ => none
    | _ => none

/-- One JSON value (with leading whitespace). -/
def parseVal (fuel : Nat) (l : List Char) : Option (JsonVal × List Char) :=
  match parseStep fuel .val l with
  | some (.v v, rest) => some (v, rest)
  | _ => none

/-- `json.loads`: parse one value, require only whitespace after it. -/
def loadsChars (l : List Char) : Option JsonVal :=
  match parseVal (2 * l.length + 2) l with
  | some (v, rest) => if (skipWs rest).isEmpty then some v else none
  | none => none

/-- `text.find(c)`: first index, `-1` when absent. -/
def pyFind (l : List Char) (c : Char) : Int :=
  match l.findIdx? fun x => x == c with
  | some i => (i : Int)
  | none => -1

/-- `text.rfind(c)`: last index, `-1` when absent. -/
def pyRFind (l : List Char) (c : Char) : Int :=
  match l.reverse.findIdx? fun x => x == c with
  | some i => ((l.length - 1 - i : Nat) : Int)
  | none => -1

/-- The raw/parse-error fallback record
`\x7b"raw": text, "parse_error": True\x7d`. -/
def parseErrorRecord (t : List Char) : JsonVal :=
  .jobj [("raw", .jstr ⟨t⟩), ("parse_error", .jbool true)]

/-- `StyleExtractor._parse_json`: strip code fences, try a direct parse, then
try the substring from the first `\x7b` to the last `\x7d`, and fall back to
the raw/parse-error record. -/
def parseJson (s : String) : JsonVal :=
  let t := stripFences s.toList
  match loadsChars t with
  | some v => v
  | none =>
    let start := pyFind t '{'
    let stop := pyRFind t '}' + 1
    if 0 ≤ start ∧ start < stop then
      match loadsChars ((t.drop start.toNat).take (stop - start).toNat) with
      | some v => v
      | none => parseErrorRecord t
    else parseErrorRecord t

/-! # Theorems -/

/-! ## Bridge lemmas: the integer-arithmetic forms above match the
floor/round formulas of the Python code -/

lemma ratDiv_eq (a b : ℤ) : ratDiv a b = (a : ℚ) / (b : ℚ) :=
  Rat.divInt_eq_div a b

lemma pyRound_eq_floor_form (x : ℚ) :
    pyRound x =
      if x - ⌊x⌋ < 1/2 then ⌊x⌋
      else if 1/2 < x - (⌊x⌋ : ℚ) then ⌊x⌋ + 1
      else if ⌊x⌋ % 2 = 0 then ⌊x⌋ else ⌊x⌋ + 1 := by
  have hden : (0 : ℚ) < (x.den : ℚ) := by
    exact_mod_cast x.den_pos
  have hden' : (x.den : ℚ) ≠ 0 := ne_of_gt hden
  have hnum : (x.num : ℚ) = x * (x.den : ℚ) := by
    have h := Rat.num_div_den x
    rw [div_eq_iff hden'] at h
    exact h
  have h1 : 2 * x.num < (2 * ⌊x⌋ + 1) * (x.den : ℤ) ↔ x - ⌊x⌋ < 1/2 := by
    constructor
    · intro h
      have h' : ((2 * x.num : ℤ) : ℚ) < (((2 * ⌊x⌋ + 1) * (x.den : ℤ) : ℤ) : ℚ) := by
        exact_mod_cast h
      push_cast at h'
      rw [hnum] at h'
      nlinarith
    · intro h
      have h' : ((2 * x.num : ℤ) : ℚ) < (((2 * ⌊x⌋ + 1) * (x.den : ℤ) : ℤ) : ℚ) := by
        push_cast
        rw [hnum]
        nlinarith
      exact_mod_cast h'
  have h2 : (2 * ⌊x⌋ + 1) * (x.den : ℤ) < 2 * x.num ↔ (1 : ℚ)/2 < x - ⌊x⌋ := by
    constructor
    · intro h
      have h' : (((2 * ⌊x⌋ + 1) * (x.den : ℤ) : ℤ) : ℚ) < ((2 * x.num : ℤ) : ℚ) := by
        exact_mod_cast h
      push_cast at h'
      rw [hnum] at h'
      nlinarith
    · intro h
      have h' : (((2 * ⌊x⌋ + 1) * (x.den : ℤ) : ℤ) : ℚ) < ((2 * x.num : ℤ) : ℚ) := by
        push_cast
        rw [hnum]
        nlinarith
      exact_mod_cast h'
  unfold pyRound
  rw [if_congr h1 rfl (if_congr h2 rfl rfl)]

lemma targetCount_eq_floor (frac : ℚ) (n : Nat) :
    targetCount frac n = max 10 (Int.toNat ⌊(n : ℚ) * frac⌋) := by
  unfold targetCount
  have h : ((n : ℤ) * frac.num) / (frac.den : ℤ) = ⌊(n : ℚ) * frac⌋ := by
    rw [← Rat.floor_intCast_div_natCast ((n : ℤ) * frac.num) frac.den]
    congr 1
    push_cast
    rw [mul_div_assoc, Rat.num_div_den]
  rw [h]

/-! ## C3: chunker correctness -/

lemma chunkGo_flatten (maxTok maxPer : Nat) (tc : String → Nat) :
    ∀ (arts current : List Article) (curTok : Nat),
      (chunkGo maxTok maxPer tc arts current curTok).flatten = current ++ arts := by
  intro arts
  induction arts with
  | nil =>
    intro current curTok
    rw [chunkGo]
    split
    · next h => simp [List.isEmpty_iff.mp h]
    · simp
  | cons a rest ih =>
    intro current curTok
    rw [chunkGo]
    split
    · simp [ih]
    · simp [ih]

lemma sumTok_append (tc : String → Nat) (c : List Article) (a : Article) :
    sumTok tc (c ++ [a]) = sumTok tc c + tc (articleText a) := by
  simp [sumTok]

lemma chunkGo_ok (maxTok maxPer : Nat) (tc : String → Nat) :
    ∀ (arts current : List Article) (curTok : Nat),
      curTok = sumTok tc current →
      (current ≠ [] →
        sumTok tc current ≤ maxTok ∧ current.length ≤ maxPer ∨ current.length = 1) →
      ∀ c ∈ chunkGo maxTok maxPer tc arts current curTok,
        ChunkOk maxTok maxPer tc c := by
  intro arts
  induction arts with
  | nil =>
    intro current curTok htok hinv c hc
    rw [chunkGo] at hc
    revert hc
    split
    · intro hc; simp at hc
    · next h =>
      intro hc
      simp only [List.mem_singleton] at hc
      subst hc
      have hne : c ≠ [] := by
        intro hnil; rw [hnil] at h; simp at h
      exact ⟨hne, hinv hne⟩
  | cons a rest ih =>
    intro current curTok htok hinv c hc
    rw [chunkGo] at hc
    revert hc
    split
    · next h =>
      intro hc
      simp only [List.mem_cons] at hc
      rcases hc with hc | hc
      · rw [hc]
        have hne : current ≠ [] := by
          rcases Bool.and_eq_true .. |>.mp h with ⟨h1, _⟩
          simpa [List.isEmpty_iff] using h1
        exact ⟨hne, hinv hne⟩
      · refine ih [a] (tc (articleText a)) (by simp [sumTok]) ?_ c hc
        intro _
        exact Or.inr rfl
    · next h =>
      intro hc
      refine ih (current ++ [a]) (curTok + tc (articleText a))
        (by rw [sumTok_append, htok]) ?_ c hc
      intro _
      simp only [Bool.and_eq_true, Bool.or_eq_true, Bool.not_eq_true',
        decide_eq_true_eq, not_and, not_or, not_lt, not_le] at h
      by_cases hcur : current = []
      · subst hcur
        exact Or.inr (by simp)
      · have hcur' : current.isEmpty = false := by
          simpa [List.isEmpty_iff] using hcur
        obtain ⟨hbud, hlen⟩ := h hcur'
        left
        constructor
        · rw [sumTok_append, ← htok]; exact hbud
        · simp only [List.length_append, List.length_singleton]; omega

/-- C3: for every document list, token budget, item cap and token counter,
`chunk_articles` returns chunks that are all non-empty, whose concatenation in
order is exactly the input list, and each of which either fits the token
budget and the item cap or is a singleton (oversized) chunk. -/
theorem chunkArticles_correct (maxTok maxPer : Nat) (tc : String → Nat)
    (articles : List Article) :
    (chunkArticles maxTok maxPer tc articles).flatten = articles ∧
    ∀ c ∈ chunkArticles maxTok maxPer tc articles,
      c ≠ [] ∧ (sumTok tc c ≤ maxTok ∧ c.length ≤ maxPer ∨ c.length = 1) := by
  constructor
  · simpa using chunkGo_flatten maxTok maxPer tc articles [] 0
  · intro c hc
    exact chunkGo_ok maxTok maxPer tc articles [] 0 (by simp [sumTok])
      (by intro h; simp at h) c hc

/-! ## C9: behaviour on empty input -/

lemma takeRng_valid : takeRng.Valid := by
  constructor
  · intro l n h
    simp [takeRng, List.length_take]
    omega
  · intro l
    rfl

/-- C9 (counterexample): on an empty corpus, `stratified_sample` and
`chunk_articles` both return the empty list — a degenerate empty result; no
`EmptyCorpusError` (or any exception) is raised, since neither function has a
raise statement. -/
theorem emptyCorpus_no_error :
    stratifiedSample takeRng (mkRat 18 100) [] = [] ∧
    chunkArticles 90000 12 String.length [] = [] :=
  ⟨rfl, rfl⟩

/-- C9 (amended): for every valid random oracle, fraction, budget, cap and
token counter, `stratified_sample` and `chunk_articles` given no documents
return an empty result list (rather than raising `EmptyCorpusError`, which
does not exist in the code). -/
theorem emptyInput_returns_empty (rng : Rng) (hv : rng.Valid) (frac : ℚ)
    (maxTok maxPer : Nat) (tc : String → Nat) :
    stratifiedSample rng frac [] = [] ∧ chunkArticles maxTok maxPer tc [] = [] := by
  constructor
  · have h1 : stratifiedSample rng frac [] = rng.shuffle [] := rfl
    rw [h1]
    have h2 := hv.2 []
    simpa [List.length_eq_zero] using h2
  · rfl

/-- C9 witness: the amended statement at a concrete oracle and settings. -/
theorem emptyInput_returns_empty_witness :
    takeRng.Valid ∧ stratifiedSample takeRng (mkRat 18 100) [] = [] :=
  ⟨takeRng_valid,
   (emptyInput_returns_empty takeRng takeRng_valid (mkRat 18 100) 90000 12
     String.length).1⟩

/-! ## C10: batch text concatenation vs sequential first-block extraction -/

lemma concatText_other (bs : List Block) :
    concatText (Block.other :: bs) = concatText bs := rfl

lemma concatText_foldl (bs : List Block) (a : String) :
    bs.foldl (fun acc b => match b with | .text s => acc ++ s | .other => acc) a =
      a ++ concatText bs := by
  induction bs generalizing a with
  | nil => simp [concatText]
  | cons b rest ih =>
    cases b with
    | text s =>
      show rest.foldl _ (a ++ s) = a ++ concatText (Block.text s :: rest)
      rw [ih]
      have : concatText (Block.text s :: rest) = s ++ concatText rest := by
        show rest.foldl _ ("" ++ s) = _
        rw [ih]
        simp
      rw [this, String.append_assoc]
    | other =>
      show rest.foldl _ a = a ++ concatText (Block.other :: rest)
      rw [concatText_other, ih]

lemma concatText_text (s : String) (bs : List Block) :
    concatText (Block.text s :: bs) = s ++ concatText bs := by
  show bs.foldl _ ("" ++ s) = _
  rw [concatText_foldl]
  simp

lemma concatText_of_no_text (bs : List Block) (h : textBlocks bs = []) :
    concatText bs = "" := by
  induction bs with
  | nil => rfl
  | cons b rest ih =>
    cases b with
    | text s => simp [textBlocks] at h
    | other =>
      rw [concatText_other]
      exact ih (by simpa [textBlocks] using h)

lemma extractText_of_no_text (bs : List Block) (h : textBlocks bs = []) :
    extractText bs = "" := by
  induction bs with
  | nil => rfl
  | cons b rest ih =>
    cases b with
    | text s => simp [textBlocks] at h
    | other =>
      show extractText rest = ""
      exact ih (by simpa [textBlocks] using h)

/-- C10 (counterexample): for the response blocks `[text "a", text ""]` the
two paths agree even though the response has two text blocks, refuting that
the paths agree exactly for at most one text block. -/
theorem collect_vs_extract_counterexample :
    concatText [Block.text "a", Block.text ""] =
      extractText [Block.text "a", Block.text ""] ∧
    (textBlocks [Block.text "a", Block.text ""]).length = 2 :=
  ⟨rfl, rfl⟩

/-- C10 (amended): batch collection concatenates all text blocks while the
sequential path extracts only the first, so the two paths agree on every
response with at most one text block, and differ on some response with
several text blocks (agreement is merely not exclusive to the at-most-one
case). -/
lemma concat_eq_extract_of_le_one :
    ∀ bs : List Block, (textBlocks bs).length ≤ 1 → concatText bs = extractText bs := by
  intro bs
  induction bs with
  | nil => intro _; rfl
  | cons b rest ih =>
    intro h
    cases b with
    | text s =>
      have hrest : textBlocks rest = [] := by
        have hlen : (textBlocks rest).length = 0 := by
          simp only [textBlocks, List.filterMap_cons, List.length_cons] at h
          simp only [textBlocks]
          omega
        exact List.length_eq_zero.mp hlen
      rw [concatText_text, concatText_of_no_text rest hrest]
      show s ++ "" = s
      simp
    | other =>
      rw [concatText_other]
      have h' : (textBlocks rest).length ≤ 1 := by
        simpa [textBlocks] using h
      rw [ih h']
      rfl

theorem collect_vs_extract (bs : List Block) (h : (textBlocks bs).length ≤ 1) :
    concatText bs = extractText bs ∧
    ∃ bs' : List Block, 2 ≤ (textBlocks bs').length ∧
      concatText bs' ≠ extractText bs' :=
  ⟨concat_eq_extract_of_le_one bs h,
   [Block.text "a", Block.text "b"], by decide, by decide⟩

/-- C10 witness: the amended statement at a one-text-block response. -/
theorem collect_vs_extract_witness :
    (textBlocks [Block.text "hello", Block.other]).length ≤ 1 ∧
    concatText [Block.text "hello", Block.other] =
      extractText [Block.text "hello", Block.other] :=
  ⟨by decide, (collect_vs_extract [Block.text "hello", Block.other] (by decide)).1⟩

/-! ## C1: no result-collection path silently drops a request -/

lemma dictInsert_keys (k v : String) (d : List (String × String)) :
    (dictInsert k v d).map Prod.fst =
      if k ∈ d.map Prod.fst then d.map Prod.fst else d.map Prod.fst ++ [k] := by
  unfold dictInsert
  have hany : (d.any fun p => p.1 == k) = true ↔ k ∈ d.map Prod.fst := by
    simp [List.any_eq_true, beq_iff_eq, List.mem_map]
  split
  · next h =>
    rw [if_pos (hany.mp h), List.map_map]
    refine List.map_congr_left ?_
    intro p _
    by_cases hp : (p.1 == k) = true
    · simp only [Function.comp_apply, if_pos hp]
      exact (beq_iff_eq.mp hp).symm
    · simp only [Function.comp_apply, if_neg hp]
  · next h =>
    rw [if_neg (fun hmem => h (hany.mpr hmem))]
    simp

lemma dictInsert_mem (k v x : String) (d : List (String × String)) :
    x ∈ (dictInsert k v d).map Prod.fst ↔ x = k ∨ x ∈ d.map Prod.fst := by
  rw [dictInsert_keys]
  split
  · next h =>
    constructor
    · exact Or.inr
    · rintro (rfl | hx)
      · exact h
      · exact hx
  · simp [or_comm]

lemma dictInsert_nodup (k v : String) (d : List (String × String))
    (h : (d.map Prod.fst).Nodup) : ((dictInsert k v d).map Prod.fst).Nodup := by
  rw [dictInsert_keys]
  split
  · exact h
  · next hk =>
    refine List.Nodup.append h (List.nodup_singleton k) ?_
    intro a ha hb
    rw [List.mem_singleton] at hb
    exact hk (hb ▸ ha)

lemma find_map_insert (k v : String) :
    ∀ d : List (String × String),
      ((d.map fun p => if p.1 == k then (k, v) else p).find? fun p => p.1 == k) =
        if (d.any fun p => p.1 == k) then some (k, v) else none := by
  intro d
  induction d with
  | nil => rfl
  | cons p rest ih =>
    by_cases hp : (p.1 == k) = true
    · simp [List.find?, hp, List.any_cons]
    · simp only [List.map_cons, List.any_cons, hp, Bool.false_or, if_neg hp]
      rw [List.find?]
      simp only [hp, Bool.false_eq_true, if_false]
      exact ih

lemma find_map_skip (k v k' : String) (h : k' ≠ k) :
    ∀ d : List (String × String),
      ((d.map fun p => if p.1 == k then (k, v) else p).find? fun p => p.1 == k') =
        d.find? fun p => p.1 == k' := by
  intro d
  induction d with
  | nil => rfl
  | cons p rest ih =>
    by_cases hp : (p.1 == k) = true
    · have h1 : (k == k') = false := by
        simpa using fun he => h he.symm
      have h2 : (p.1 == k') = false := by
        rw [beq_iff_eq.mp hp]; exact h1
      simp only [List.map_cons, if_pos hp]
      rw [List.find?, List.find?]
      simp only [h1, h2, Bool.false_eq_true, if_false]
      exact ih
    · simp only [List.map_cons, if_neg hp]
      rw [List.find?, List.find?]
      by_cases hq : (p.1 == k') = true
      · simp [hq]
      · simp only [hq, Bool.false_eq_true, if_false]
        exact ih

lemma dictLookup_insert_self (k v : String) (d : List (String × String)) :
    dictLookup (dictInsert k v d) k = some v := by
  unfold dictLookup dictInsert
  split
  · next h =>
    rw [find_map_insert, if_pos h]
    rfl
  · next h =>
    rw [List.find?_append]
    have hnone : (d.find? fun p => p.1 == k) = none := by
      rw [List.find?_eq_none]
      intro p hp hpk
      exact h (List.any_eq_true.mpr ⟨p, hp, hpk⟩)
    rw [hnone]
    simp [List.find?]

lemma dictLookup_insert_ne (k v k' : String) (h : k' ≠ k)
    (d : List (String × String)) :
    dictLookup (dictInsert k v d) k' = dictLookup d k' := by
  unfold dictLookup dictInsert
  split
  · rw [find_map_skip k v k' h]
  · rw [List.find?_append]
    have h1 : (k == k') = false := by
      simpa using fun he => h he.symm
    cases hfind : d.find? fun p => p.1 == k' with
    | none => simp [List.find?, h1]
    | some p => simp

lemma foldDict_mem (ps : List (String × String)) :
    ∀ (d0 : List (String × String)) (x : String),
      x ∈ ((ps.foldl (fun d p => dictInsert p.1 p.2 d) d0).map Prod.fst) ↔
        x ∈ d0.map Prod.fst ∨ x ∈ ps.map Prod.fst := by
  induction ps with
  | nil => simp
  | cons p rest ih =>
    intro d0 x
    simp only [List.foldl_cons, List.map_cons, List.mem_cons]
    rw [ih]
    rw [dictInsert_mem]
    tauto

lemma foldDict_nodup (ps : List (String × String)) :
    ∀ d0 : List (String × String), (d0.map Prod.fst).Nodup →
      ((ps.foldl (fun d p => dictInsert p.1 p.2 d) d0).map Prod.fst).Nodup := by
  induction ps with
  | nil => exact fun d0 h => h
  | cons p rest ih =>
    intro d0 h
    exact ih _ (dictInsert_nodup p.1 p.2 d0 h)

lemma foldDict_lookup_preserve (ps : List (String × String)) (k : String)
    (hk : k ∉ ps.map Prod.fst) :
    ∀ d0 : List (String × String),
      dictLookup (ps.foldl (fun d p => dictInsert p.1 p.2 d) d0) k =
        dictLookup d0 k := by
  induction ps with
  | nil => exact fun d0 => rfl
  | cons p rest ih =>
    intro d0
    simp only [List.map_cons, List.mem_cons, not_or] at hk
    simp only [List.foldl_cons]
    rw [ih hk.2, dictLookup_insert_ne p.1 p.2 k hk.1]

lemma foldDict_lookup (ps : List (String × String))
    (h : (ps.map Prod.fst).Nodup) :
    ∀ p ∈ ps, ∀ d0 : List (String × String),
      dictLookup (ps.foldl (fun d q => dictInsert q.1 q.2 d) d0) p.1 = some p.2 := by
  induction ps with
  | nil => intro p hp; simp at hp
  | cons q rest ih =>
    intro p hp d0
    simp only [List.map_cons, List.nodup_cons] at h
    simp only [List.foldl_cons]
    rcases List.mem_cons.mp hp with rfl | hp'
    · rw [foldDict_lookup_preserve rest p.1 h.1, dictLookup_insert_self]
    · exact ih h.2 p hp' _

lemma collectResults_as_fold (events : List BatchEvent) :
    collectResults events =
      (events.map fun e => (e.customId, outcomeText e.result)).foldl
        (fun d p => dictInsert p.1 p.2 d) [] := by
  rw [List.foldl_map]
  rfl

lemma fallbackSequential_as_fold (completeFn : String → List String → String)
    (requests : List BatchRequest) :
    fallbackSequential completeFn requests =
      (requests.map fun r => (r.customId, completeFn r.system r.messages)).foldl
        (fun d p => dictInsert p.1 p.2 d) [] := by
  rw [List.foldl_map]
  rfl

/-- C1: neither result-collection path silently drops a request.
`fallback_sequential` returns a mapping with exactly one entry per distinct
input request id (no dropped keys), holding that request's completion text
when ids are unique; `_collect_results` likewise maps every fetched outcome to
an entry — a succeeded outcome to its concatenated text and a failed outcome
to the empty string — collecting all outcomes. -/
theorem resultCollection_no_drops :
    (∀ (f : String → List String → String) (requests : List BatchRequest),
      ((fallbackSequential f requests).map Prod.fst).Nodup ∧
      ∀ x, x ∈ (fallbackSequential f requests).map Prod.fst ↔
        x ∈ requests.map BatchRequest.customId) ∧
    (∀ (f : String → List String → String) (requests : List BatchRequest),
      (requests.map BatchRequest.customId).Nodup →
      ∀ req ∈ requests,
        dictLookup (fallbackSequential f requests) req.customId =
          some (f req.system req.messages)) ∧
    (∀ events : List BatchEvent,
      ((collectResults events).map Prod.fst).Nodup ∧
      ∀ x, x ∈ (collectResults events).map Prod.fst ↔
        x ∈ events.map BatchEvent.customId) ∧
    (∀ events : List BatchEvent,
      (events.map BatchEvent.customId).Nodup →
      ∀ e ∈ events,
        dictLookup (collectResults events) e.customId =
          some (outcomeText e.result)) ∧
    (∀ blocks, outcomeText (.succeeded blocks) = concatText blocks) ∧
    (∀ err, outcomeText (.failed err) = "") := by
  have hkeys₁ : ∀ (f : String → List String → String) (requests : List BatchRequest),
      (fallbackSequential f requests).map Prod.fst =
        ((requests.map fun r => (r.customId, f r.system r.messages)).foldl
          (fun d p => dictInsert p.1 p.2 d) []).map Prod.fst := by
    intro f requests; rw [fallbackSequential_as_fold]
  have hkeys₂ : ∀ events : List BatchEvent,
      (collectResults events).map Prod.fst =
        ((events.map fun e => (e.customId, outcomeText e.result)).foldl
          (fun d p => dictInsert p.1 p.2 d) []).map Prod.fst := by
    intro events; rw [collectResults_as_fold]
  refine ⟨?_, ?_, ?_, ?_, fun _ => rfl, fun _ => rfl⟩
  · intro f requests
    constructor
    · rw [hkeys₁]
      exact foldDict_nodup _ [] (by simp)
    · intro x
      rw [hkeys₁, foldDict_mem]
      simp [List.map_map, Function.comp]
  · intro f requests h req hreq
    rw [fallbackSequential_as_fold]
    have h' : ((requests.map fun r => (r.customId, f r.system r.messages)).map
        Prod.fst).Nodup := by
      simpa [List.map_map, Function.comp] using h
    have := foldDict_lookup _ h' (req.customId, f req.system req.messages)
      (List.mem_map.mpr ⟨req, hreq, rfl⟩) []
    exact this
  · intro events
    constructor
    · rw [hkeys₂]
      exact foldDict_nodup _ [] (by simp)
    · intro x
      rw [hkeys₂, foldDict_mem]
      simp [List.map_map, Function.comp]
  · intro events h e he
    rw [collectResults_as_fold]
    have h' : ((events.map fun e => (e.customId, outcomeText e.result)).map
        Prod.fst).Nodup := by
      simpa [List.map_map, Function.comp] using h
    have := foldDict_lookup _ h' (e.customId, outcomeText e.result)
      (List.mem_map.mpr ⟨e, he, rfl⟩) []
    exact this

/-- C1 witness: on a concrete batch with one failed and one succeeded outcome,
every request id is present, the failed one mapping to the empty string. -/
theorem resultCollection_no_drops_witness :
    ([⟨"r1", .failed "errored"⟩, ⟨"r2", .succeeded [Block.text "out"]⟩].map
      BatchEvent.customId).Nodup ∧
    dictLookup (collectResults
      [⟨"r1", .failed "errored"⟩, ⟨"r2", .succeeded [Block.text "out"]⟩]) "r1" =
      some "" :=
  ⟨by decide,
   resultCollection_no_drops.2.2.2.1
     [⟨"r1", .failed "errored"⟩, ⟨"r2", .succeeded [Block.text "out"]⟩]
     (by decide) ⟨"r1", .failed "errored"⟩ (by simp)⟩

/-! ## C2: retry policy of `LLMClient.complete` -/

lemma complete_reach (resp : Nat → ApiResponse) :
    ∀ i, i ≤ MAX_RETRIES → (∀ j, j < i → retryable (resp j) = true) →
      (complete resp).outcome = (completeAux resp i (MAX_RETRIES - i)).outcome ∧
      (complete resp).delays =
        (List.range i).map (fun j => responseDelay (resp j) j) ++
          (completeAux resp i (MAX_RETRIES - i)).delays := by
  intro i
  induction i with
  | zero => intro _ _; exact ⟨rfl, by simp [complete]⟩
  | succ n ih =>
    intro hle hpre
    obtain ⟨ho, hd⟩ := ih (by omega) (fun j hj => hpre j (by omega))
    have hrem : MAX_RETRIES - n = (MAX_RETRIES - (n + 1)) + 1 := by
      unfold MAX_RETRIES at *; omega
    have hr := hpre n (by omega)
    rw [hrem] at ho hd
    cases hn : resp n with
    | success t => rw [hn] at hr; simp [retryable] at hr
    | otherError => rw [hn] at hr; simp [retryable] at hr
    | rateLimit ra =>
      simp only [completeAux, hn] at ho hd
      refine ⟨ho, ?_⟩
      rw [hd, List.range_succ, List.map_append, List.append_assoc]
      simp [hn]
    | apiStatus code =>
      have hcode : 500 ≤ code ∨ code = 529 := by
        rw [hn] at hr
        simpa [retryable] using hr
      simp only [completeAux, hn, if_pos hcode] at ho hd
      refine ⟨ho, ?_⟩
      rw [hd, List.range_succ, List.map_append, List.append_assoc]
      simp [hn, responseDelay]

lemma backoffDelay_mono {i j : Nat} (h : i ≤ j) : backoffDelay i ≤ backoffDelay j := by
  unfold backoffDelay BASE_DELAY
  refine min_le_min ?_ le_rfl
  have h2 : (2 : ℚ) ^ i ≤ 2 ^ j := pow_le_pow_right₀ (by norm_num) h
  linarith

lemma backoffDelay_le_max (i : Nat) : backoffDelay i ≤ MAX_DELAY :=
  min_le_right _ _

lemma complete_reach_delay_get (resp : Nat → ApiResponse) (i : Nat)
    (hi : i < MAX_RETRIES) (hpre : ∀ j, j < i → retryable (resp j) = true)
    (hri : retryable (resp i) = true) :
    (complete resp).delays.get? i = some (responseDelay (resp i) i) ∧
    (complete resp).outcome =
      (completeAux resp (i + 1) (MAX_RETRIES - (i + 1))).outcome := by
  have hpre' : ∀ j, j < i + 1 → retryable (resp j) = true := by
    intro j hj
    rcases Nat.lt_succ_iff_lt_or_eq.mp hj with hj' | rfl
    · exact hpre j hj'
    · exact hri
  obtain ⟨ho, hd⟩ := complete_reach resp (i + 1) (by omega) hpre'
  refine ⟨?_, ho⟩
  rw [hd]
  have hlen : i < ((List.range (i + 1)).map
      fun j => responseDelay (resp j) j).length := by
    simp
  rw [List.get?_append hlen, List.get?_map, List.get?_range (by omega)]
  rfl

/-- C2: the retry policy of `LLMClient.complete`.  (1) A rate-limit response
on 0-based attempt `i` is retried after a delay of
`min(BASE_DELAY * 2 ^ i, MAX_DELAY)` seconds, overridden upward to a larger
retry-after hint when one is supplied; (2) a server-side error
(status `>= 500` or `529`) is retried with the same backoff; (3) any other
status propagates immediately without a further retry delay, (4) as does any
other exception class; (5) retrying all `MAX_RETRIES` attempts without
success is a fatal failure; and (6) a run of rate-limit responses (without
hints) followed by one success succeeds within the attempt budget with
non-decreasing delays, each at most `MAX_DELAY`. -/
theorem complete_retry_policy :
    (∀ (resp : Nat → ApiResponse) (i : Nat) (ra : Option ℚ),
      i < MAX_RETRIES → (∀ j, j < i → retryable (resp j) = true) →
      resp i = .rateLimit ra →
      (complete resp).delays.get? i =
        some (match ra with
          | none => min (BASE_DELAY * 2 ^ i) MAX_DELAY
          | some r => max (min (BASE_DELAY * 2 ^ i) MAX_DELAY) r) ∧
      (complete resp).outcome =
        (completeAux resp (i + 1) (MAX_RETRIES - (i + 1))).outcome) ∧
    (∀ (resp : Nat → ApiResponse) (i code : Nat),
      i < MAX_RETRIES → (∀ j, j < i → retryable (resp j) = true) →
      resp i = .apiStatus code → 500 ≤ code ∨ code = 529 →
      (complete resp).delays.get? i = some (min (BASE_DELAY * 2 ^ i) MAX_DELAY) ∧
      (complete resp).outcome =
        (completeAux resp (i + 1) (MAX_RETRIES - (i + 1))).outcome) ∧
    (∀ (resp : Nat → ApiResponse) (i code : Nat),
      i < MAX_RETRIES → (∀ j, j < i → retryable (resp j) = true) →
      resp i = .apiStatus code → code < 500 → code ≠ 529 →
      (complete resp).outcome = .raisedStatus code ∧
      (complete resp).delays.length = i) ∧
    (∀ (resp : Nat → ApiResponse) (i : Nat),
      i < MAX_RETRIES → (∀ j, j < i → retryable (resp j) = true) →
      resp i = .otherError →
      (complete resp).outcome = .raisedOther ∧
      (complete resp).delays.length = i) ∧
    (∀ resp : Nat → ApiResponse,
      (∀ j, j < MAX_RETRIES → retryable (resp j) = true) →
      (complete resp).outcome = .exhausted) ∧
    (∀ (k : Nat) (t : String), k < MAX_RETRIES →
      (complete (rateLimitRun k t)).outcome = .ok t ∧
      (complete (rateLimitRun k t)).delays.Pairwise (· ≤ ·) ∧
      ∀ d ∈ (complete (rateLimitRun k t)).delays, d ≤ MAX_DELAY) := by
  refine ⟨?_, ?_, ?_, ?_, ?_, ?_⟩
  · intro resp i ra hi hpre hra
    have hri : retryable (resp i) = true := by rw [hra]; rfl
    obtain ⟨hget, ho⟩ := complete_reach_delay_get resp i hi hpre hri
    refine ⟨?_, ho⟩
    rw [hget, hra]
    cases ra <;> rfl
  · intro resp i code hi hpre hcode hc
    have hri : retryable (resp i) = true := by
      rw [hcode]; simpa [retryable] using hc
    obtain ⟨hget, ho⟩ := complete_reach_delay_get resp i hi hpre hri
    refine ⟨?_, ho⟩
    rw [hget, hcode]
    rfl
  · intro resp i code hi hpre hcode hlt hne
    obtain ⟨ho, hd⟩ := complete_reach resp i (by omega) hpre
    have hrem : MAX_RETRIES - i = (MAX_RETRIES - (i + 1)) + 1 := by
      unfold MAX_RETRIES at *; omega
    rw [hrem] at ho hd
    have hnc : ¬(500 ≤ code ∨ code = 529) := by omega
    simp only [completeAux, hcode, if_neg hnc] at ho hd
    refine ⟨ho, ?_⟩
    rw [hd]
    simp
  · intro resp i hi hpre hoth
    obtain ⟨ho, hd⟩ := complete_reach resp i (by omega) hpre
    have hrem : MAX_RETRIES - i = (MAX_RETRIES - (i + 1)) + 1 := by
      unfold MAX_RETRIES at *; omega
    rw [hrem] at ho hd
    simp only [completeAux, hoth] at ho hd
    refine ⟨ho, ?_⟩
    rw [hd]
    simp
  · intro resp hall
    obtain ⟨ho, _⟩ := complete_reach resp MAX_RETRIES le_rfl hall
    simpa [completeAux] using ho
  · intro k t hk
    have hpre : ∀ j, j < k → retryable (rateLimitRun k t j) = true := by
      intro j hj
      simp [rateLimitRun, hj, retryable]
    obtain ⟨ho, hd⟩ := complete_reach (rateLimitRun k t) k (by omega) hpre
    have hrem : MAX_RETRIES - k = (MAX_RETRIES - (k + 1)) + 1 := by
      unfold MAX_RETRIES at *; omega
    rw [hrem] at ho hd
    have hrk : rateLimitRun k t k = .success t := by
      simp [rateLimitRun]
    simp only [completeAux, hrk] at ho hd
    have hdeq : (complete (rateLimitRun k t)).delays =
        (List.range k).map backoffDelay := by
      rw [hd, List.append_nil]
      refine List.map_congr_left ?_
      intro j hj
      have hj' : j < k := List.mem_range.mp hj
      simp [rateLimitRun, hj', responseDelay]
    refine ⟨ho, ?_, ?_⟩
    · rw [hdeq, List.pairwise_map]
      refine List.Pairwise.imp ?_ (List.pairwise_lt_range k)
      intro a b hab
      exact backoffDelay_mono (Nat.le_of_lt hab)
    · intro d hdm
      rw [hdeq] at hdm
      obtain ⟨j, _, rfl⟩ := List.mem_map.mp hdm
      exact backoffDelay_le_max j

/-- C2 witness: three rate limits then success — the call succeeds with
non-decreasing delays, and the first delay is `min(2 * 2^0, 120) = 2`. -/
theorem complete_retry_policy_witness :
    (3 < MAX_RETRIES ∧ (complete (rateLimitRun 3 "done")).outcome = .ok "done") ∧
    (0 < MAX_RETRIES ∧ rateLimitRun 3 "done" 0 = .rateLimit none ∧
      (complete (rateLimitRun 3 "done")).delays.get? 0 = some 2) :=
  ⟨⟨by decide, (complete_retry_policy.2.2.2.2.2 3 "done" (by decide)).1⟩,
   by decide, rfl,
   by
    have h := (complete_retry_policy.1 (rateLimitRun 3 "done") 0 none
      (by decide) (by intro j hj; omega) rfl).1
    rw [h]
    norm_num [BASE_DELAY, MAX_DELAY]⟩

/-! ## C4/C5: stratified-sampler size accounting -/

lemma sliceLoop_length (pick : List Article → Nat → List Article)
    (hpick : ∀ l n, n ≤ l.length → (pick l n).length = n)
    (arts : List Article) (m q : Nat) (hmq : m * q ≤ arts.length) :
    ∀ k r, 1 ≤ k → k ≤ m → r + (m - k) * q ≤ arts.length →
      (sliceLoop pick arts m q k r).length = r := by
  intro k
  induction k with
  | zero => intro r h1 _ _; exact absurd h1 (by omega)
  | succ k ih =>
    intro r _ hkm hr
    set s := m - (k + 1) with hs
    simp only [sliceLoop, List.length_append, ← hs]
    split
    · -- a slice before the last: its width is exactly q
      next hlt =>
      have hk1 : 1 ≤ k := by omega
      have hsq : s * q + q ≤ arts.length := by
        have h1 : s * q + q = (s + 1) * q := by ring
        have h2 : (s + 1) * q ≤ m * q := Nat.mul_le_mul_right q (by omega)
        omega
      have hstop : s * q + q - s * q = q := by omega
      rw [hstop]
      have hlen : ((arts.drop (s * q)).take q).length = q := by
        rw [List.length_take, List.length_drop]
        omega
      set a := r / (k + 1) with ha
      have hn : min (r / (k + 1)) ((arts.drop (s * q)).take q).length =
          min a q := by rw [hlen, ha]
      rw [hn]
      have hpickn : (pick ((arts.drop (s * q)).take q) (min a q)).length =
          min a q := by
        refine hpick _ _ ?_
        rw [hlen]
        exact min_le_right _ _
      rw [hpickn]
      have hmkq : (m - k) * q = s * q + q := by
        have h1 : m - k = s + 1 := by omega
        rw [h1]; ring
      have hinv : (r - min a q) + (m - k) * q ≤ arts.length := by
        rcases Nat.lt_or_ge a q with hq | hq
        · have hmina : min a q = a := min_eq_left (Nat.le_of_lt hq)
          have hdm : (k + 1) * a + r % (k + 1) = r := by
            rw [ha]
            exact Nat.div_add_mod r (k + 1)
          have hmod : r % (k + 1) < k + 1 := Nat.mod_lt _ (by omega)
          have hka : k * (a + 1) ≤ k * q := Nat.mul_le_mul_left k (by omega)
          have hexp1 : k * (a + 1) = k * a + k := by ring
          have hexp2 : (k + 1) * a = k * a + a := by ring
          have hmq2 : k * q + (s * q + q) ≤ arts.length := by
            have h1 : k * q + (s * q + q) = (k + s + 1) * q := by ring
            have h2 : k + s + 1 = m := by omega
            rw [h1, h2]
            exact hmq
          omega
        · have hminq : min a q = q := min_eq_right hq
          have hqr : q ≤ r := le_trans hq (Nat.div_le_self _ _)
          omega
      rw [ih (r - min a q) hk1 (by omega) hinv]
      have hnr : min a q ≤ r := le_trans (min_le_left _ _) (Nat.div_le_self _ _)
      omega
    · -- the last slice: it absorbs the whole remainder
      next hge =>
      have hk0 : k = 0 := by omega
      subst hk0
      have hsm : s = m - 1 := by omega
      have hsq : s * q ≤ arts.length := by
        have h2 : s * q ≤ m * q := Nat.mul_le_mul_right q (by omega)
        omega
      have hlen : ((arts.drop (s * q)).take (arts.length - s * q)).length =
          arts.length - s * q := by
        rw [List.length_take, List.length_drop]
        omega
      have hrle : r ≤ arts.length - s * q := by
        have h1 : r + s * q ≤ arts.length := by
          have h2 : m - 1 = s := hsm.symm
          simpa [← h2] using hr
        omega
      have hn : min (r / (0 + 1)) ((arts.drop (s * q)).take
          (arts.length - s * q)).length = r := by
        rw [hlen, Nat.zero_add, Nat.div_one]
        exact min_eq_left hrle
      rw [hn]
      have hpickn : (pick ((arts.drop (s * q)).take (arts.length - s * q))
          r).length = r := by
        refine hpick _ _ ?_
        rw [hlen]
        exact hrle
      rw [hpickn]
      simp [sliceLoop]

lemma sliceSample_length (pick : List Article → Nat → List Article)
    (hpick : ∀ l n, n ≤ l.length → (pick l n).length = n)
    (group : List Article) (catN : Nat) (h1 : 1 ≤ catN)
    (hlt : catN < group.length) :
    (sliceLoop pick group (min catN 4) (group.length / min catN 4)
      (min catN 4) catN).length = catN := by
  refine sliceLoop_length pick hpick group (min catN 4)
    (group.length / min catN 4) ?_ (min catN 4) catN (by omega) le_rfl ?_
  · calc min catN 4 * (group.length / min catN 4)
        = group.length / min catN 4 * min catN 4 := Nat.mul_comm _ _
      _ ≤ group.length := Nat.div_mul_le_self _ _
  · simp only [Nat.sub_self, Nat.zero_mul, Nat.add_zero]
    omega

lemma categorySelect_length (pick : List Article → Nat → List Article)
    (hpick : ∀ l n, n ≤ l.length → (pick l n).length = n)
    (group : List Article) (catN : Nat) (h1 : 1 ≤ catN)
    (hle : catN ≤ group.length) :
    (categorySelect pick group catN).length = catN := by
  unfold categorySelect
  split
  · next h => omega
  · next h =>
    push_neg at h
    exact sliceSample_length pick hpick group catN h1 h

lemma firstOccs_mem {α : Type} [DecidableEq α] (l : List α) (x : α) :
    x ∈ firstOccs l ↔ x ∈ l := by
  induction l with
  | nil => simp [firstOccs]
  | cons y rest ih =>
    simp only [firstOccs, List.mem_cons, List.mem_filter, decide_eq_true_eq]
    constructor
    · rintro (rfl | ⟨hx, _⟩)
      · exact Or.inl rfl
      · exact Or.inr (ih.mp hx)
    · rintro (rfl | hx)
      · exact Or.inl rfl
      · by_cases hxy : x = y
        · exact Or.inl hxy
        · exact Or.inr ⟨ih.mpr hx, hxy⟩

lemma firstOccs_nodup {α : Type} [DecidableEq α] (l : List α) :
    (firstOccs l).Nodup := by
  induction l with
  | nil => simp [firstOccs]
  | cons y rest ih =>
    simp only [firstOccs, List.nodup_cons]
    refine ⟨?_, List.Nodup.filter _ ih⟩
    intro hy
    rcases List.mem_filter.mp hy with ⟨_, hne⟩
    simp at hne

lemma filter_of_filter_stronger {α : Type} {p q : α → Bool} (l : List α)
    (h : ∀ a, q a = true → p a = true) :
    (l.filter p).filter q = l.filter q := by
  induction l with
  | nil => rfl
  | cons a rest ih =>
    by_cases hq : q a = true
    · have hp : p a = true := h a hq
      simp [List.filter_cons, hq, hp, ih]
    · by_cases hp : p a = true
      · simp [List.filter_cons, hq, hp, ih]
      · simp [List.filter_cons, hq, hp, ih]

lemma sum_length_filter_eq (keys : List String) (l : List Article)
    (hnd : keys.Nodup) (hcov : ∀ a ∈ l, primaryCat a ∈ keys) :
    (keys.map fun k =>
      (l.filter fun a => decide (primaryCat a = k)).length).sum = l.length := by
  induction keys generalizing l with
  | nil =>
    cases l with
    | nil => simp
    | cons a rest => exact absurd (hcov a (by simp)) (by simp)
  | cons k ks ih =>
    simp only [List.map_cons, List.sum_cons]
    have hnd' := List.nodup_cons.mp hnd
    have hrest : (ks.map fun k' =>
        (l.filter fun a => decide (primaryCat a = k')).length).sum =
        (l.filter fun a => !decide (primaryCat a = k)).length := by
      rw [← ih (l.filter fun a => !decide (primaryCat a = k)) hnd'.2 ?_]
      · apply congrArg List.sum
        refine List.map_congr_left ?_
        intro k' hk'
        have hkk : k' ≠ k := by
          rintro rfl
          exact hnd'.1 hk'
        rw [filter_of_filter_stronger l ?_]
        intro a ha
        simp only [decide_eq_true_eq] at ha
        simp [ha, hkk]
      · intro a ha
        rcases List.mem_filter.mp ha with ⟨hal, hak⟩
        have := hcov a hal
        simp only [List.mem_cons] at this
        rcases this with heq | hks
        · exfalso
          rw [heq] at hak
          simp at hak
        · exact hks
    rw [hrest]
    exact (List.length_eq_length_filter_add
      (fun a => decide (primaryCat a = k))).symm

lemma selectedBeforeCorrection_length (pick : List Article → Nat → List Article)
    (hpick : ∀ l n, n ≤ l.length → (pick l n).length = n) (frac : ℚ)
    (articles : List Article) :
    (selectedBeforeCorrection pick frac articles).length =
      ((firstOccs (articles.map primaryCat)).map fun k =>
        categoryQuota (targetCount frac articles.length) articles.length
          (articles.filter fun a => decide (primaryCat a = k)).length).sum := by
  simp only [selectedBeforeCorrection]
  rw [List.length_flatten, List.map_map]
  apply congrArg List.sum
  refine List.map_congr_left ?_
  intro k hk
  simp only [Function.comp_apply]
  have hsort : (sortByDate (articles.filter fun a =>
      decide (primaryCat a = k))).length =
      (articles.filter fun a => decide (primaryCat a = k)).length :=
    List.length_insertionSort _ _
  have hmem : k ∈ articles.map primaryCat := (firstOccs_mem _ _).mp hk
  obtain ⟨a, ha, hak⟩ := List.mem_map.mp hmem
  have hpos : 0 < (articles.filter fun a => decide (primaryCat a = k)).length := by
    have hmemf : a ∈ articles.filter fun a => decide (primaryCat a = k) :=
      List.mem_filter.mpr ⟨ha, by simp [hak]⟩
    exact List.length_pos.mpr (List.ne_nil_of_mem hmemf)
  rw [hsort]
  apply categorySelect_length pick hpick
  · unfold categoryQuota
    omega
  · rw [hsort]
    exact min_le_right _ _

lemma selected_length_le (pick : List Article → Nat → List Article)
    (hpick : ∀ l n, n ≤ l.length → (pick l n).length = n) (frac : ℚ)
    (articles : List Article) :
    (selectedBeforeCorrection pick frac articles).length ≤ articles.length := by
  rw [selectedBeforeCorrection_length pick hpick]
  calc ((firstOccs (articles.map primaryCat)).map fun k =>
        categoryQuota (targetCount frac articles.length) articles.length
          (articles.filter fun a => decide (primaryCat a = k)).length).sum
      ≤ ((firstOccs (articles.map primaryCat)).map fun k =>
        (articles.filter fun a => decide (primaryCat a = k)).length).sum :=
        List.sum_le_sum fun k _ => min_le_right _ _
    _ = articles.length :=
        sum_length_filter_eq _ articles (firstOccs_nodup _)
          (fun a ha => (firstOccs_mem _ _).mpr (List.mem_map_of_mem _ ha))

lemma selected_length_pos (pick : List Article → Nat → List Article)
    (hpick : ∀ l n, n ≤ l.length → (pick l n).length = n) (frac : ℚ)
    (articles : List Article) (hne : articles ≠ []) :
    1 ≤ (selectedBeforeCorrection pick frac articles).length := by
  rw [selectedBeforeCorrection_length pick hpick]
  obtain ⟨a, ha⟩ := List.exists_mem_of_ne_nil articles hne
  have hk : primaryCat a ∈ firstOccs (articles.map primaryCat) :=
    (firstOccs_mem _ _).mpr (List.mem_map_of_mem _ ha)
  have hpos : 0 < (articles.filter fun x =>
      decide (primaryCat x = primaryCat a)).length := by
    have hmemf : a ∈ articles.filter fun x =>
        decide (primaryCat x = primaryCat a) :=
      List.mem_filter.mpr ⟨ha, by simp⟩
    exact List.length_pos.mpr (List.ne_nil_of_mem hmemf)
  have hq1 : 1 ≤ categoryQuota (targetCount frac articles.length)
      articles.length (articles.filter fun x =>
        decide (primaryCat x = primaryCat a)).length := by
    unfold categoryQuota
    omega
  refine le_trans hq1 (List.le_sum_of_mem ?_)
  exact List.mem_map_of_mem _ hk

/-- C5: for every category whose quota is at least 1 and strictly below its
group size, the time-slice loop (with `n_slices = min(cat_n, 4)` and
`slice_size = len // n_slices`) selects exactly the quota — the per-slice caps
never cause a shortfall — and consequently the aggregate selection before the
overshoot-correction step equals the sum of the per-category quotas. -/
theorem sliceLoop_exact_quota :
    (∀ pick : List Article → Nat → List Article,
      (∀ l n, n ≤ l.length → (pick l n).length = n) →
      ∀ (group : List Article) (catN : Nat), 1 ≤ catN → catN < group.length →
        (sliceLoop pick group (min catN 4) (group.length / min catN 4)
          (min catN 4) catN).length = catN) ∧
    (∀ rng : Rng, rng.Valid → ∀ (frac : ℚ) (articles : List Article),
      (selectedBeforeCorrection rng.pick frac articles).length =
        ((firstOccs (articles.map primaryCat)).map fun k =>
          categoryQuota (targetCount frac articles.length) articles.length
            (articles.filter fun a => decide (primaryCat a = k)).length).sum) :=
  ⟨fun pick hpick group catN h1 hlt =>
      sliceSample_length pick hpick group catN h1 hlt,
   fun rng hv frac articles =>
      selectedBeforeCorrection_length rng.pick hv.1 frac articles⟩

/-- C5 witness: the aggregate-count identity at a concrete oracle and corpus,
plus the slice loop taking exactly a quota of 4 from a 5-article group. -/
theorem sliceLoop_exact_quota_witness :
    takeRng.Valid ∧
    (selectedBeforeCorrection takeRng.pick (mkRat 18 100) corpus12).length =
      ((firstOccs (corpus12.map primaryCat)).map fun k =>
        categoryQuota (targetCount (mkRat 18 100) corpus12.length)
          corpus12.length
          (corpus12.filter fun a => decide (primaryCat a = k)).length).sum ∧
    (sliceLoop takeRng.pick ((List.range 5).map fun i => mkArticle i "a")
      (min 4 4) (((List.range 5).map fun i => mkArticle i "a").length / min 4 4)
      (min 4 4) 4).length = 4 :=
  ⟨takeRng_valid,
   sliceLoop_exact_quota.2 takeRng takeRng_valid (mkRat 18 100) corpus12,
   sliceLoop_exact_quota.1 takeRng.pick takeRng_valid.1
     ((List.range 5).map fun i => mkArticle i "a") 4 (by decide) (by decide)⟩

/-- C4 (counterexample): on a 12-document corpus with category sizes 5, 4
and 3 and the default sample fraction 0.18, the target count is 10 but
Python's banker's rounding gives per-category quotas 4, 3 and 2, so the
sample has 9 documents — the claimed lower bound of 10 fails. -/
theorem stratifiedSample_size_counterexample :
    corpus12.length = 12 ∧
    targetCount (mkRat 18 100) corpus12.length = 10 ∧
    (stratifiedSample takeRng (mkRat 18 100) corpus12).length = 9 ∧
    ¬10 ≤ (stratifiedSample takeRng (mkRat 18 100) corpus12).length :=
  ⟨by decide, by decide, by decide, by decide⟩

/-- C4 (amended): for every valid random oracle and non-empty corpus, the
sample is non-empty, never larger than the corpus, and never exceeds the
target count `max(10, floor(corpus_size * sample_fraction))`; the claimed
lower bound of 10 does not hold in general (see the counterexample). -/
theorem stratifiedSample_size (rng : Rng) (hv : rng.Valid) (frac : ℚ)
    (articles : List Article) (hne : articles ≠ []) :
    1 ≤ (stratifiedSample rng frac articles).length ∧
    (stratifiedSample rng frac articles).length ≤ articles.length ∧
    (stratifiedSample rng frac articles).length ≤
      targetCount frac articles.length := by
  have hS_le := selected_length_le rng.pick hv.1 frac articles
  have hS_pos := selected_length_pos rng.pick hv.1 frac articles hne
  have htN10 : 10 ≤ targetCount frac articles.length := le_max_left _ _
  simp only [stratifiedSample]
  by_cases hcase : targetCount frac articles.length <
      (selectedBeforeCorrection rng.pick frac articles).length
  · rw [if_pos hcase, hv.2]
    rw [hv.1 _ _ (le_of_lt hcase)]
    exact ⟨by omega, by omega, le_rfl⟩
  · rw [if_neg hcase, hv.2]
    push_neg at hcase
    exact ⟨hS_pos, hS_le, hcase⟩

/-- C4 witness: the amended bounds at a concrete oracle and corpus. -/
theorem stratifiedSample_size_witness :
    takeRng.Valid ∧ corpus12 ≠ [] ∧
    (1 ≤ (stratifiedSample takeRng (mkRat 18 100) corpus12).length ∧
      (stratifiedSample takeRng (mkRat 18 100) corpus12).length ≤
        corpus12.length ∧
      (stratifiedSample takeRng (mkRat 18 100) corpus12).length ≤
        targetCount (mkRat 18 100) corpus12.length) :=
  ⟨takeRng_valid, by decide,
   stratifiedSample_size takeRng takeRng_valid (mkRat 18 100) corpus12
     (by decide)⟩

/-! ## C7: cluster representative selection -/

lemma exists_max_mem : ∀ l : List ℚ, l ≠ [] → ∃ x ∈ l, ∀ y ∈ l, y ≤ x := by
  intro l
  induction l with
  | nil => intro h; exact absurd rfl h
  | cons a t ih =>
    intro _
    cases t with
    | nil =>
      refine ⟨a, by simp, ?_⟩
      intro y hy
      simp only [List.mem_singleton] at hy
      rw [hy]
    | cons b u =>
      obtain ⟨x, hx, hmax⟩ := ih (by simp)
      rcases le_total a x with hax | hax
      · refine ⟨x, List.mem_cons_of_mem a hx, ?_⟩
        intro y hy
        rcases List.mem_cons.mp hy with rfl | hy'
        · exact hax
        · exact hmax y hy'
      · refine ⟨a, List.mem_cons_self a _, ?_⟩
        intro y hy
        rcases List.mem_cons.mp hy with rfl | hy'
        · exact le_rfl
        · exact le_trans (hmax y hy') hax

lemma argmaxIdx_lt {l : List ℚ} (h : l ≠ []) : argmaxIdx l < l.length := by
  unfold argmaxIdx
  apply List.findIdx_lt_length_of_exists
  obtain ⟨x, hx, hmax⟩ := exists_max_mem l h
  exact ⟨x, hx, by simpa using hmax⟩

lemma argmaxIdx_max {l : List ℚ} (h : l ≠ []) :
    ∀ y ∈ l, y ≤ l.getD (argmaxIdx l) 0 := by
  have hlt : argmaxIdx l < l.length := argmaxIdx_lt h
  have hlt' : (l.findIdx fun x => decide (∀ y ∈ l, y ≤ x)) < l.length := hlt
  have hp := List.findIdx_getElem (w := hlt')
  have hmax := of_decide_eq_true hp
  intro y hy
  have hgetD : l.getD (argmaxIdx l) 0 = l[argmaxIdx l] := by
    rw [List.getD_eq_getElem?_getD, List.getElem?_eq_getElem hlt]
    rfl
  rw [hgetD]
  exact hmax y hy

lemma filterMap_filter_key (g : Nat → Option FewShotExample)
    (hkey : ∀ c e, g c = some e → e.clusterId = c) :
    ∀ l : List Nat, l.Nodup → ∀ cid ∈ l,
      (l.filterMap g).filter (fun e => decide (e.clusterId = cid)) =
        (g cid).toList := by
  intro l
  induction l with
  | nil => intro _ cid hcid; simp at hcid
  | cons c cs ih =>
    intro hnd cid hcid
    have hnd' := List.nodup_cons.mp hnd
    rw [List.filterMap_cons]
    rcases List.mem_cons.mp hcid with rfl | hcs
    · have hrest : (cs.filterMap g).filter
          (fun e => decide (e.clusterId = cid)) = [] := by
        rw [List.filter_eq_nil_iff]
        intro e he
        obtain ⟨c', hc', hgc'⟩ := List.mem_filterMap.mp he
        have hk := hkey c' e hgc'
        simp only [decide_eq_true_eq]
        intro heq
        rw [heq] at hk
        exact hnd'.1 (hk ▸ hc')
      cases hg : g cid with
      | none => simp [hg, hrest]
      | some e =>
        have he := hkey cid e hg
        simp [List.filter_cons, he, hrest]
    · have hne : c ≠ cid := fun h => hnd'.1 (h ▸ hcs)
      cases hg : g c with
      | none => simpa using ih hnd'.2 cid hcs
      | some e =>
        have he := hkey c e hg
        simp only [List.filter_cons, he, hne, decide_eq_true_eq,
          if_neg hne]
        exact ih hnd'.2 cid hcs

/-- C7: `build_clusters` runs the selection over
`k = min(configured cluster target, corpus size)` clusters; for each cluster
id below `k`, an empty cluster yields no Example, and a non-empty cluster
yields exactly one Example — a member of maximal cosine similarity to the
cluster centroid, recorded with distance `1 − similarity`. -/
theorem buildClusters_correct (nSetting : Nat) (labels : List Nat)
    (sim : Nat → Nat → ℚ) (articleIds : List Nat) (cid : Nat)
    (hcid : cid < min nSetting articleIds.length) :
    buildClusters nSetting labels sim articleIds =
      buildExamples (min nSetting articleIds.length) labels sim articleIds ∧
    (((buildClusters nSetting labels sim articleIds).filter
        fun e => decide (e.clusterId = cid)) = [] ↔
      (List.range labels.length).filter
        (fun i => decide (labels.getD i 0 = cid)) = []) ∧
    ((List.range labels.length).filter
        (fun i => decide (labels.getD i 0 = cid)) ≠ [] →
      ∃ e, ((buildClusters nSetting labels sim articleIds).filter
          fun e => decide (e.clusterId = cid)) = [e] ∧
        ∃ i ∈ (List.range labels.length).filter
            (fun i => decide (labels.getD i 0 = cid)),
          e.articleId = articleIds.getD i 0 ∧
          (∀ j ∈ (List.range labels.length).filter
              (fun i => decide (labels.getD i 0 = cid)),
            sim j cid ≤ sim i cid) ∧
          e.distanceToCentroid = 1 - sim i cid) := by
  set g : Nat → Option FewShotExample := fun c =>
    if ((List.range labels.length).filter
        fun i => decide (labels.getD i 0 = c)).isEmpty then none
    else some
      { articleId := articleIds.getD
          (((List.range labels.length).filter
              fun i => decide (labels.getD i 0 = c)).getD
            (argmaxIdx (((List.range labels.length).filter
              fun i => decide (labels.getD i 0 = c)).map fun i => sim i c)) 0) 0
        clusterId := c
        distanceToCentroid := 1 - (((List.range labels.length).filter
              fun i => decide (labels.getD i 0 = c)).map fun i => sim i c).getD
            (argmaxIdx (((List.range labels.length).filter
              fun i => decide (labels.getD i 0 = c)).map fun i => sim i c)) 0 }
    with hgdef
  have hkey : ∀ c e, g c = some e → e.clusterId = c := by
    intro c e h
    rw [hgdef] at h
    simp only at h
    split at h
    · exact absurd h (by simp)
    · injection h with h'
      rw [← h']
  have hbc : buildClusters nSetting labels sim articleIds =
      (List.range (min nSetting articleIds.length)).filterMap g := rfl
  have hfilter := filterMap_filter_key g hkey
    (List.range (min nSetting articleIds.length))
    (List.nodup_range _) cid (List.mem_range.mpr hcid)
  refine ⟨rfl, ?_, ?_⟩
  · rw [hbc, hfilter, hgdef]
    simp only []
    split
    · next hi =>
      simpa [List.isEmpty_iff] using hi
    · next hi =>
      simp only [Option.toList_some]
      constructor
      · intro h; exact absurd h (by simp)
      · intro h
        rw [List.isEmpty_iff] at hi
        exact absurd h hi
  · intro hne
    rw [hbc, hfilter, hgdef]
    simp only []
    split
    · next hi =>
      rw [List.isEmpty_iff] at hi
      exact absurd hi hne
    · next hi =>
      set indices := (List.range labels.length).filter
        (fun i => decide (labels.getD i 0 = cid)) with hidx
      set distances := indices.map (fun i => sim i cid) with hdist
      have hdne : distances ≠ [] := by
        rw [hdist]
        simpa using hne
      have hA : argmaxIdx distances < distances.length := argmaxIdx_lt hdne
      have hAi : argmaxIdx distances < indices.length := by
        rw [hdist, List.length_map] at hA
        exact hA
      have hgetDi : indices.getD (argmaxIdx distances) 0 =
          indices[argmaxIdx distances] := by
        rw [List.getD_eq_getElem?_getD, List.getElem?_eq_getElem hAi]
        rfl
      have hmemi : indices.getD (argmaxIdx distances) 0 ∈ indices := by
        rw [hgetDi]
        exact List.getElem_mem hAi
      have hvalD : distances.getD (argmaxIdx distances) 0 =
          sim (indices.getD (argmaxIdx distances) 0) cid := by
        rw [List.getD_eq_getElem?_getD, List.getD_eq_getElem?_getD, hdist,
          List.getElem?_map]
        rw [hdist] at hAi
        rw [List.getElem?_eq_getElem hAi]
        simp
      refine ⟨_, rfl, indices.getD (argmaxIdx distances) 0, hmemi, rfl, ?_, ?_⟩
      · intro j hj
        have hjm : sim j cid ∈ distances := by
          rw [hdist]
          exact List.mem_map_of_mem _ hj
        have := argmaxIdx_max hdne (sim j cid) hjm
        rw [hvalD] at this
        exact this
      · rw [hvalD]

/-- C7 witness: on 4 articles labelled into 2 clusters (cluster 1 empty under
`min` with a 2-cluster setting), cluster 0 gets exactly one Example, a member
of maximal similarity. -/
theorem buildClusters_correct_witness :
    (0 < min 2 ([10, 11, 12, 13] : List Nat).length) ∧
    (([0, 1, 0, 1] : List Nat) ≠ [] → True) ∧
    (((buildClusters 2 [0, 1, 0, 1] (fun i _ => (i : ℚ)) [10, 11, 12, 13]).filter
        fun e => decide (e.clusterId = 0)) = [] ↔
      (List.range ([0, 1, 0, 1] : List Nat).length).filter
        (fun i => decide (([0, 1, 0, 1] : List Nat).getD i 0 = 0)) = []) :=
  ⟨by decide, fun _ => trivial,
   (buildClusters_correct 2 [0, 1, 0, 1] (fun i _ => (i : ℚ)) [10, 11, 12, 13]
     0 (by decide)).2.1⟩

/-! ## C8: similarity retrieval -/

instance argsortRel_isTotal (vals : List ℚ) : IsTotal Nat (argsortRel vals) where
  total a b := by
    unfold argsortRel
    rcases lt_trichotomy (vals.getD a 0) (vals.getD b 0) with h | h | h
    · exact Or.inl (Or.inl h)
    · rcases le_total a b with hab | hab
      · exact Or.inl (Or.inr ⟨h, hab⟩)
      · exact Or.inr (Or.inr ⟨h.symm, hab⟩)
    · exact Or.inr (Or.inl h)

instance argsortRel_isTrans (vals : List ℚ) : IsTrans Nat (argsortRel vals) where
  trans a b c hab hbc := by
    unfold argsortRel at *
    rcases hab with hab | ⟨hab, hab'⟩
    · rcases hbc with hbc | ⟨hbc, _⟩
      · exact Or.inl (lt_trans hab hbc)
      · exact Or.inl (hbc ▸ hab)
    · rcases hbc with hbc | ⟨hbc, hbc'⟩
      · exact Or.inl (hab ▸ hbc)
      · exact Or.inr ⟨hab.trans hbc, le_trans hab' hbc'⟩

lemma argsort_perm (vals : List ℚ) :
    List.Perm (argsort vals) (List.range vals.length) :=
  List.perm_insertionSort _ _

lemma argsort_sorted (vals : List ℚ) :
    List.Sorted (argsortRel vals) (argsort vals) :=
  List.sorted_insertionSort _ _

lemma argsort_length (vals : List ℚ) : (argsort vals).length = vals.length := by
  rw [(argsort_perm vals).length_eq, List.length_range]

lemma argsort_nodup (vals : List ℚ) : (argsort vals).Nodup :=
  ((argsort_perm vals).nodup_iff).mpr (List.nodup_range _)

lemma argsort_mem (vals : List ℚ) (p : Nat) :
    p ∈ argsort vals ↔ p < vals.length := by
  rw [(argsort_perm vals).mem_iff, List.mem_range]

/-- The selected argsort positions: length. -/
lemma slice_rev_length (vals : List ℚ) (t : Nat) (ht : t ≤ vals.length) :
    ((pySliceLast (argsort vals) t).reverse).length =
      if t = 0 then vals.length else t := by
  rw [List.length_reverse]
  unfold pySliceLast
  split
  · exact argsort_length vals
  · rw [List.length_drop, argsort_length]
    omega

lemma slice_rev_subset (vals : List ℚ) (t : Nat) :
    ∀ p ∈ (pySliceLast (argsort vals) t).reverse, p < vals.length := by
  intro p hp
  rw [List.mem_reverse] at hp
  have hp' : p ∈ argsort vals := by
    unfold pySliceLast at hp
    split at hp
    · exact hp
    · exact List.mem_of_mem_drop hp
  exact (argsort_mem vals p).mp hp'

lemma slice_rev_nodup (vals : List ℚ) (t : Nat) :
    ((pySliceLast (argsort vals) t).reverse).Nodup := by
  rw [List.nodup_reverse]
  unfold pySliceLast
  split
  · exact argsort_nodup vals
  · exact (List.drop_sublist _ _).nodup (argsort_nodup vals)

/-- Every position left out of the selection relates below every selected
position in the argsort order. -/
lemma slice_rev_cross (vals : List ℚ) (t : Nat) :
    ∀ p ∈ (pySliceLast (argsort vals) t).reverse,
    ∀ q, q < vals.length → q ∉ (pySliceLast (argsort vals) t).reverse →
      argsortRel vals q p := by
  intro p hp q hq hqn
  rw [List.mem_reverse] at hp
  rw [List.mem_reverse] at hqn
  unfold pySliceLast at hp hqn
  split at hp
  · next h =>
    rw [if_pos h] at hqn
    exact absurd ((argsort_mem vals q).mpr hq) hqn
  · next h0 =>
    rw [if_neg h0] at hqn
    have hq' : q ∈ argsort vals := (argsort_mem vals q).mpr hq
    have hsplit : argsort vals =
        (argsort vals).take ((argsort vals).length - t) ++
          (argsort vals).drop ((argsort vals).length - t) :=
      (List.take_append_drop _ _).symm
    have hqtake : q ∈ (argsort vals).take ((argsort vals).length - t) := by
      rcases List.mem_append.mp (hsplit ▸ hq') with hqt | hqd
      · exact hqt
      · exact absurd hqd hqn
    have hsorted := argsort_sorted vals
    rw [List.Sorted, hsplit, List.pairwise_append] at hsorted
    exact hsorted.2.2 q hqtake p hp

/-- C8 (counterexample): with two examples of similarities `0 < 1` and
`n = 2`, `find_similar` returns `[1, 2]` — ascending article-id order from the
store's `ORDER BY id` — not the descending-similarity ranking `[2, 1]`;
moreover on an exact similarity tie the later example wins (reverse of the
claimed original-cluster-order tie-break), and `n = 0` returns every example
instead of `min(0, count) = 0` of them. -/
theorem findSimilar_counterexample :
    (findSimilar (fun i => (i : ℚ)) [1, 2] [1, 2] 2 = [1, 2] ∧
      (0 : ℚ) < 1 ∧
      findSimilar (fun i => (i : ℚ)) [1, 2] [1, 2] 2 ≠ [2, 1]) ∧
    (findSimilar (fun _ => (0 : ℚ)) [5, 6] [5, 6] 1 = [6] ∧ (6 : Nat) ≠ 5) ∧
    (findSimilar (fun i => (i : ℚ)) [1, 2] [1, 2] 0 = [1, 2] ∧
      ¬(findSimilar (fun i => (i : ℚ)) [1, 2] [1, 2] 0).length = min 0 2) :=
  ⟨⟨by decide, by decide, by decide⟩, ⟨by decide, by decide⟩,
   ⟨by decide, by decide⟩⟩

lemma getD_of_lt {α : Type} (l : List α) (d : α) (p : Nat) (h : p < l.length) :
    l.getD p d = l[p] := by
  rw [List.getD_eq_getElem?_getD, List.getElem?_eq_getElem h]
  rfl

lemma sqlByIds_singleton (x : Nat) : sqlByIds [x] = [x] := by
  simp [sqlByIds]

/-- C8 (amended): for distinct article ids, `find_similar` returns a list
sorted by ascending article id (the store's `ORDER BY id`), of size
`min n #examples` for `n ≥ 1` but of size `#examples` for `n = 0` (Python's
`a[-0:]` is the whole array); every returned id is an example's id; every
returned example has similarity at least that of every example not returned
(the top set is selected by similarity); and when the query's similarity to
one example strictly exceeds all others, `n = 1` returns exactly that
example. -/
theorem findSimilar_correct (sim : Nat → ℚ) (articleIds exampleIds : List Nat)
    (n : Nat) (hnd : articleIds.Nodup) :
    List.Sorted (· ≤ ·) (findSimilar sim articleIds exampleIds n) ∧
    (1 ≤ n → (findSimilar sim articleIds exampleIds n).length =
      min n ((List.range articleIds.length).filter
        (fun i => decide (articleIds.getD i 0 ∈ exampleIds))).length) ∧
    (n = 0 → (findSimilar sim articleIds exampleIds n).length =
      ((List.range articleIds.length).filter
        (fun i => decide (articleIds.getD i 0 ∈ exampleIds))).length) ∧
    (∀ x ∈ findSimilar sim articleIds exampleIds n,
      ∃ i ∈ (List.range articleIds.length).filter
        (fun i => decide (articleIds.getD i 0 ∈ exampleIds)),
        x = articleIds.getD i 0) ∧
    (∀ i ∈ (List.range articleIds.length).filter
        (fun i => decide (articleIds.getD i 0 ∈ exampleIds)),
      ∀ j ∈ (List.range articleIds.length).filter
        (fun i => decide (articleIds.getD i 0 ∈ exampleIds)),
      articleIds.getD i 0 ∈ findSimilar sim articleIds exampleIds n →
      articleIds.getD j 0 ∉ findSimilar sim articleIds exampleIds n →
      sim j ≤ sim i) ∧
    (n = 1 →
      ∀ i ∈ (List.range articleIds.length).filter
        (fun i => decide (articleIds.getD i 0 ∈ exampleIds)),
      (∀ j ∈ (List.range articleIds.length).filter
        (fun i => decide (articleIds.getD i 0 ∈ exampleIds)), j ≠ i →
          sim j < sim i) →
      findSimilar sim articleIds exampleIds n = [articleIds.getD i 0]) := by
  simp only [findSimilar]
  set E := (List.range articleIds.length).filter
    (fun i => decide (articleIds.getD i 0 ∈ exampleIds)) with hE
  set vals := E.map (fun i => sim i) with hvals
  set topN := min n E.length with htopN
  set sel := (pySliceLast (argsort vals) topN).reverse with hsel
  set req := sel.map (fun p => articleIds.getD (E.getD p 0) 0) with hreq
  have hE_nodup : E.Nodup := by
    rw [hE]
    exact (List.nodup_range _).filter _
  have hE_lt : ∀ p ∈ E, p < articleIds.length := by
    intro p hp
    rw [hE] at hp
    exact List.mem_range.mp (List.mem_filter.mp hp).1
  have hvals_len : vals.length = E.length := by rw [hvals, List.length_map]
  have htople : topN ≤ vals.length := by
    rw [hvals_len, htopN]
    exact min_le_right _ _
  have hsel_lt : ∀ p ∈ sel, p < E.length := by
    intro p hp
    have h := slice_rev_subset vals topN p (by rw [hsel] at hp; exact hp)
    rw [hvals_len] at h
    exact h
  have hsel_nodup : sel.Nodup := by
    rw [hsel]
    exact slice_rev_nodup vals topN
  have hsel_len : sel.length = if topN = 0 then E.length else topN := by
    rw [hsel, slice_rev_length vals topN htople, hvals_len]
  have hvals_at : ∀ p, (hp : p < E.length) → vals.getD p 0 = sim (E.getD p 0) := by
    intro p hp
    rw [List.getD_eq_getElem?_getD, hvals, List.getElem?_map,
      List.getElem?_eq_getElem hp, getD_of_lt E 0 p hp]
    rfl
  have hreq_nodup : req.Nodup := by
    rw [hreq]
    refine List.Nodup.map_on ?_ hsel_nodup
    intro p1 hp1 p2 hp2 heq
    have h1 := hsel_lt p1 hp1
    have h2 := hsel_lt p2 hp2
    rw [getD_of_lt E 0 p1 h1, getD_of_lt E 0 p2 h2] at heq
    have hm1 : E[p1] ∈ E := List.getElem_mem h1
    have hm2 : E[p2] ∈ E := List.getElem_mem h2
    have hl1 : E[p1] < articleIds.length := hE_lt _ hm1
    have hl2 : E[p2] < articleIds.length := hE_lt _ hm2
    rw [getD_of_lt articleIds 0 _ hl1, getD_of_lt articleIds 0 _ hl2] at heq
    have hidx : E[p1] = E[p2] := hnd.getElem_inj_iff.mp heq
    exact hE_nodup.getElem_inj_iff.mp hidx
  have hres_sorted : List.Sorted (fun a b => a ≤ b) (sqlByIds req) := by
    unfold sqlByIds
    exact List.sorted_insertionSort _ _
  have hres_perm : List.Perm (sqlByIds req) req := by
    unfold sqlByIds
    have h1 := List.perm_insertionSort (fun a b => a ≤ b) req.dedup
    have h2 : List.Perm req.dedup req := by
      rw [List.dedup_eq_self.mpr hreq_nodup]
    exact h1.trans h2
  have hres_len : (sqlByIds req).length = req.length := hres_perm.length_eq
  have hres_mem : ∀ x, x ∈ sqlByIds req ↔ x ∈ req := fun x => hres_perm.mem_iff
  have hreq_len : req.length = sel.length := by rw [hreq, List.length_map]
  refine ⟨hres_sorted, ?_, ?_, ?_, ?_, ?_⟩
  · intro hn
    rw [hres_len, hreq_len, hsel_len]
    split
    · next h0 => omega
    · next h0 => omega
  · intro hn0
    rw [hres_len, hreq_len, hsel_len, if_pos (by omega)]
  · intro x hx
    obtain ⟨p, hp, hpx⟩ := List.mem_map.mp ((hres_mem x).mp hx)
    have hplt := hsel_lt p hp
    refine ⟨E.getD p 0, ?_, hpx.symm⟩
    rw [getD_of_lt E 0 p hplt]
    exact List.getElem_mem hplt
  · intro i hi j hj hin hjn
    obtain ⟨pj, hpj, hEpj⟩ := List.mem_iff_getElem.mp hj
    obtain ⟨p, hp, hpid⟩ := List.mem_map.mp ((hres_mem _).mp hin)
    have hplt := hsel_lt p hp
    have hEp_mem : E.getD p 0 ∈ E := by
      rw [getD_of_lt E 0 p hplt]
      exact List.getElem_mem hplt
    have hEp_lt : E.getD p 0 < articleIds.length := hE_lt _ hEp_mem
    have hi_lt : i < articleIds.length := hE_lt i hi
    have hEp_eq : E.getD p 0 = i := by
      rw [getD_of_lt articleIds 0 _ hEp_lt, getD_of_lt articleIds 0 _ hi_lt]
        at hpid
      exact hnd.getElem_inj_iff.mp hpid
    have hpj_not : pj ∉ sel := by
      intro hmem
      apply hjn
      refine (hres_mem _).mpr ?_
      rw [hreq]
      refine List.mem_map.mpr ⟨pj, hmem, ?_⟩
      rw [getD_of_lt E 0 pj hpj, hEpj]
    have hcross := slice_rev_cross vals topN p
      (by rw [hsel] at hp; exact hp) pj
      (by rw [hvals_len]; exact hpj)
      (by rw [hsel] at hpj_not; exact hpj_not)
    have h1 : vals.getD pj 0 = sim j := by
      rw [hvals_at pj hpj, getD_of_lt E 0 pj hpj, hEpj]
    have h2 : vals.getD p 0 = sim i := by
      rw [hvals_at p hplt, hEp_eq]
    unfold argsortRel at hcross
    rw [h1, h2] at hcross
    rcases hcross with h | ⟨h, _⟩
    · exact le_of_lt h
    · exact le_of_eq h
  · intro hn1 i hi hmax
    have hEne : E ≠ [] := List.ne_nil_of_mem hi
    have hEpos : 0 < E.length := List.length_pos.mpr hEne
    have htop1 : topN = 1 := by rw [htopN, hn1]; omega
    have hsl : sel.length = 1 := by
      rw [hsel_len, htop1]
      simp
    obtain ⟨p, hpsel⟩ := List.length_eq_one.mp hsl
    have hp : p ∈ sel := by rw [hpsel]; simp
    have hplt := hsel_lt p hp
    obtain ⟨pi, hpi, hEpi⟩ := List.mem_iff_getElem.mp hi
    by_cases hip : E.getD p 0 = i
    · rw [hreq, hpsel]
      simp only [List.map_cons, List.map_nil]
      rw [hip, sqlByIds_singleton]
    · exfalso
      have hpi_ne : pi ≠ p := by
        intro h
        apply hip
        rw [← h, getD_of_lt E 0 pi hpi, hEpi]
      have hpi_not : pi ∉ sel := by
        rw [hpsel]
        simp [hpi_ne]
      have hcross := slice_rev_cross vals topN p
        (by rw [hsel] at hp; exact hp) pi
        (by rw [hvals_len]; exact hpi)
        (by rw [hsel] at hpi_not; exact hpi_not)
      have hEp_mem : E.getD p 0 ∈ E := by
        rw [getD_of_lt E 0 p hplt]
        exact List.getElem_mem hplt
      have hlt := hmax (E.getD p 0) hEp_mem hip
      have h1 : vals.getD pi 0 = sim i := by
        rw [hvals_at pi hpi, getD_of_lt E 0 pi hpi, hEpi]
      have h2 : vals.getD p 0 = sim (E.getD p 0) := hvals_at p hplt
      unfold argsortRel at hcross
      rw [h1, h2] at hcross
      rcases hcross with h | ⟨h, _⟩
      · exact absurd (lt_trans h hlt) (lt_irrefl _)
      · exact absurd (h ▸ hlt) (lt_irrefl _)

/-- C8 witness: the amended statement at a concrete model: two examples of
distinct similarity, `n = 2` returns both (size `min 2 2`), sorted by id. -/
theorem findSimilar_correct_witness :
    ([1, 2] : List Nat).Nodup ∧ 1 ≤ 2 ∧
    (findSimilar (fun i => (i : ℚ)) [1, 2] [1, 2] 2).length =
      min 2 ((List.range ([1, 2] : List Nat).length).filter
        (fun i => decide (([1, 2] : List Nat).getD i 0 ∈
          ([1, 2] : List Nat)))).length :=
  ⟨by decide, by decide,
   (findSimilar_correct (fun i => (i : ℚ)) [1, 2] [1, 2] 2
     (by decide)).2.1 (by decide)⟩

/-! ## C6: tolerant JSON extraction -/

/-- C6: `_parse_json` never raises.  The fenced input parses to the object,
the noisy input parses via the first-brace/last-brace substring, the
json-free input yields the raw/parse-error record; in general every input
yields a value, and when both the direct parse and the substring parse fail
(or no brace pair exists) the result is the record containing the raw text
plus the parse-error flag. -/
theorem parseJson_never_raises :
    parseJson "```json\n\x7b\"a\":1\x7d\n```" = .jobj [("a", .jnum 1)] ∧
    parseJson "blah \x7b\"a\":1\x7d blah" = .jobj [("a", .jnum 1)] ∧
    parseJson "no json here" =
      .jobj [("raw", .jstr "no json here"), ("parse_error", .jbool true)] ∧
    (∀ s : String, ∃ v : JsonVal, parseJson s = v) ∧
    (∀ s : String, loadsChars (stripFences s.toList) = none →
      ¬(0 ≤ pyFind (stripFences s.toList) '{' ∧
        pyFind (stripFences s.toList) '{' <
          pyRFind (stripFences s.toList) '}' + 1) →
      parseJson s = parseErrorRecord (stripFences s.toList)) ∧
    (∀ s : String, loadsChars (stripFences s.toList) = none →
      (0 ≤ pyFind (stripFences s.toList) '{' ∧
        pyFind (stripFences s.toList) '{' <
          pyRFind (stripFences s.toList) '}' + 1) →
      loadsChars (((stripFences s.toList).drop
          (pyFind (stripFences s.toList) '{').toNat).take
        (pyRFind (stripFences s.toList) '}' + 1 -
          pyFind (stripFences s.toList) '{').toNat) = none →
      parseJson s = parseErrorRecord (stripFences s.toList)) := by
  refine ⟨rfl, rfl, rfl, fun s => ⟨parseJson s, rfl⟩, ?_, ?_⟩
  · intro s h1 h2
    simp only [parseJson]
    split
    · next v heq =>
      rw [h1] at heq
      exact Option.noConfusion heq
    · rw [if_neg h2]
  · intro s h1 hin h3
    simp only [parseJson]
    split
    · next v heq =>
      rw [h1] at heq
      exact Option.noConfusion heq
    · rw [if_pos hin]
      split
      · next v heq2 =>
        rw [h3] at heq2
        exact Option.noConfusion heq2
      · rfl

/-- C6 witness: the fallback-record branch at the json-free input. -/
theorem parseJson_never_raises_witness :
    loadsChars (stripFences ("no json here").toList) = none ∧
    parseJson "no json here" =
      parseErrorRecord (stripFences ("no json here").toList) :=
  ⟨rfl,
   parseJson_never_raises.2.2.2.2.1 "no json here" rfl (by decide)⟩

end Rewriter
